import Mathlib

/-!
Verification of the fidget core interval-evaluation engine
(`fidget/src/core/eval/interval.rs`) against its specification.

Modelling conventions:

* An `f32` value is modelled by `F`: either NaN, an infinity, or a finite
  value.  Finite values are exact rationals: per the spec's rounding note
  (results are computed in round-to-nearest and may be off by one ulp from
  the mathematically tight value), we reason about the idealized exact
  arithmetic; the special-value behaviour (NaN, infinities, IEEE comparison
  semantics where every comparison with NaN is false) is modelled exactly.
  The two IEEE zeros compare and behave equal in value; they are collapsed
  to the single rational 0.  The only operations whose IEEE result depends
  on the sign of a zero are divisions by zero; every division performed by
  the code under verification is guarded to a nonzero divisor, and the
  model maps division by the collapsed zero to NaN.
* `f32::sqrt` does not stay inside the rationals, so interval square root
  takes the endpoint square-root function as an explicit parameter,
  constrained by the IEEE facts the proofs need (e.g. `sqrt NaN = NaN`).
* `f32::min` / `f32::max` follow Rust semantics: if one argument is NaN the
  other argument is returned.
-/

namespace Fidget

/-- Model of an `f32` value: NaN, an infinity, or an exact finite value. -/
inductive F where
  | nan : F
  | neginf : F
  | posinf : F
  | fin : ℚ → F
deriving DecidableEq, Repr

/-- `f32::is_nan`. -/
def F.isNan : F → Bool
  | .nan => true
  | _ => false

/-- IEEE `<=` comparison: false whenever either operand is NaN. -/
def F.le : F → F → Bool
  | .nan, _ => false
  | _, .nan => false
  | .neginf, _ => true
  | .fin _, .neginf => false
  | .posinf, .neginf => false
  | _, .posinf => true
  | .posinf, .fin _ => false
  | .fin q, .fin r => decide (q ≤ r)

/-- IEEE `<` comparison: false whenever either operand is NaN. -/
def F.lt : F → F → Bool
  | .nan, _ => false
  | _, .nan => false
  | .neginf, .neginf => false
  | .neginf, _ => true
  | .fin _, .neginf => false
  | .posinf, _ => false
  | .fin _, .posinf => true
  | .fin q, .fin r => decide (q < r)

/-- IEEE negation. -/
def F.neg : F → F
  | .nan => .nan
  | .neginf => .posinf
  | .posinf => .neginf
  | .fin q => .fin (-q)

/-- IEEE addition (exact on finite values); opposite infinities give NaN. -/
def F.add : F → F → F
  | .nan, _ => .nan
  | _, .nan => .nan
  | .posinf, .neginf => .nan
  | .neginf, .posinf => .nan
  | .posinf, _ => .posinf
  | _, .posinf => .posinf
  | .neginf, _ => .neginf
  | _, .neginf => .neginf
  | .fin q, .fin r => .fin (q + r)

/-- IEEE subtraction; `a - b` coincides with `a + (-b)`, including on
special values. -/
def F.sub (a b : F) : F := F.add a (F.neg b)

/-- IEEE multiplication (exact on finite values); zero times an infinity
gives NaN. -/
def F.mul : F → F → F
  | .nan, _ => .nan
  | _, .nan => .nan
  | .posinf, .posinf => .posinf
  | .posinf, .neginf => .neginf
  | .neginf, .posinf => .neginf
  | .neginf, .neginf => .posinf
  | .posinf, .fin q => if 0 < q then .posinf else if q < 0 then .neginf else .nan
  | .neginf, .fin q => if 0 < q then .neginf else if q < 0 then .posinf else .nan
  | .fin q, .posinf => if 0 < q then .posinf else if q < 0 then .neginf else .nan
  | .fin q, .neginf => if 0 < q then .neginf else if q < 0 then .posinf else .nan
  | .fin q, .fin r => .fin (q * r)

/-- IEEE division (exact on finite values).  Infinity over infinity is NaN;
a finite value over an infinity is (a signed) zero, collapsed to 0.
Division by the collapsed zero is mapped to NaN (its IEEE value depends on
the sign of the zero; the code under verification never divides by zero). -/
def F.div : F → F → F
  | .nan, _ => .nan
  | _, .nan => .nan
  | .posinf, .posinf => .nan
  | .posinf, .neginf => .nan
  | .neginf, .posinf => .nan
  | .neginf, .neginf => .nan
  | .posinf, .fin q => if 0 < q then .posinf else if q < 0 then .neginf else .nan
  | .neginf, .fin q => if 0 < q then .neginf else if q < 0 then .posinf else .nan
  | .fin _, .posinf => .fin 0
  | .fin _, .neginf => .fin 0
  | .fin q, .fin r => if r = 0 then .nan else .fin (q / r)

/-- Rust `f32::min`: if one argument is NaN the other argument is returned. -/
def F.min : F → F → F
  | .nan, b => b
  | a, .nan => a
  | .neginf, _ => .neginf
  | _, .neginf => .neginf
  | .posinf, b => b
  | a, .posinf => a
  | .fin q, .fin r => .fin (Min.min q r)

/-- Rust `f32::max`: if one argument is NaN the other argument is returned. -/
def F.max : F → F → F
  | .nan, b => b
  | a, .nan => a
  | .posinf, _ => .posinf
  | _, .posinf => .posinf
  | .neginf, b => b
  | a, .neginf => a
  | .fin q, .fin r => .fin (Max.max q r)

/-- `f32::abs`. -/
def F.abs : F → F
  | .nan => .nan
  | .neginf => .posinf
  | .posinf => .posinf
  | .fin q => .fin |q|

/-- `f32::powi(2)`. -/
def F.sq : F → F
  | .nan => .nan
  | .neginf => .posinf
  | .posinf => .posinf
  | .fin q => .fin (q * q)

/-- The pair of endpoints of `fidget`'s `Interval` struct. -/
structure Interval where
  lower : F
  upper : F
deriving DecidableEq, Repr

/-- The condition asserted by `Interval::new`: `upper >= lower` (in IEEE
order) or both endpoints NaN.  `Interval::new` panics when it is false. -/
def newCheck (lower upper : F) : Bool :=
  F.le lower upper || (lower.isNan && upper.isNan)

/-- The NaN-or-ordered invariant every constructed `Interval` satisfies. -/
def Interval.valid (i : Interval) : Prop := newCheck i.lower i.upper = true

instance (i : Interval) : Decidable i.valid :=
  inferInstanceAs (Decidable (newCheck i.lower i.upper = true))


/-- `Interval::has_nan`. -/
def Interval.hasNan (i : Interval) : Bool := i.lower.isNan || i.upper.isNan

/-- `std::f32::NAN.into()`: the NaN interval. -/
def nanInterval : Interval := ⟨.nan, .nan⟩

/-- `Interval::abs`. -/
def Interval.abs (i : Interval) : Interval :=
  if F.lt i.lower (.fin 0) then
    if F.lt (.fin 0) i.upper then ⟨.fin 0, F.max i.upper (F.neg i.lower)⟩
    else ⟨F.neg i.upper, F.neg i.lower⟩
  else i

/-- `Interval::square`. -/
def Interval.square (i : Interval) : Interval :=
  if F.lt i.upper (.fin 0) then ⟨F.sq i.upper, F.sq i.lower⟩
  else if F.lt (.fin 0) i.lower then ⟨F.sq i.lower, F.sq i.upper⟩
  else if i.hasNan then nanInterval
  else ⟨.fin 0, F.sq (F.max (F.abs i.lower) (F.abs i.upper))⟩

/-- `Interval::sqrt`.  The endpoint square root `s` stands for `f32::sqrt`,
which leaves the rationals and is therefore passed as a parameter. -/
def Interval.sqrt (s : F → F) (i : Interval) : Interval :=
  if F.lt i.lower (.fin 0) then
    if F.lt (.fin 0) i.upper then ⟨.fin 0, s i.upper⟩
    else nanInterval
  else ⟨s i.lower, s i.upper⟩

/-- `Interval::recip`. -/
def Interval.recip (i : Interval) : Interval :=
  if F.lt (.fin 0) i.lower || F.lt i.upper (.fin 0) then
    ⟨F.div (.fin 1) i.upper, F.div (.fin 1) i.lower⟩
  else nanInterval

/-- Model of the `Choice` trace values.  Modelled from the spec: the
`Choice` enum itself is declared outside the sources under verification;
the spec fixes its four values (two-bit lattice). -/
inductive Choice where
  | Unknown : Choice
  | Left : Choice
  | Right : Choice
  | Both : Choice
deriving DecidableEq, Repr

/-- `Interval::min_choice`. -/
def Interval.min_choice (a b : Interval) : Interval × Choice :=
  if a.hasNan || b.hasNan then (nanInterval, .Both)
  else
    let choice := if F.lt a.upper b.lower then Choice.Left
      else if F.lt b.upper a.lower then Choice.Right
      else Choice.Both
    (⟨F.min a.lower b.lower, F.min a.upper b.upper⟩, choice)

/-- `Interval::max_choice`. -/
def Interval.max_choice (a b : Interval) : Interval × Choice :=
  if a.hasNan || b.hasNan then (nanInterval, .Both)
  else
    let choice := if F.lt b.upper a.lower then Choice.Left
      else if F.lt a.upper b.lower then Choice.Right
      else Choice.Both
    (⟨F.max a.lower b.lower, F.max a.upper b.upper⟩, choice)

/-- `impl Add for Interval`. -/
def Interval.add (a b : Interval) : Interval :=
  ⟨F.add a.lower b.lower, F.add a.upper b.upper⟩

/-- `impl Sub for Interval`. -/
def Interval.sub (a b : Interval) : Interval :=
  ⟨F.sub a.lower b.upper, F.sub a.upper b.lower⟩

/-- `impl Neg for Interval`. -/
def Interval.neg (i : Interval) : Interval :=
  ⟨F.neg i.upper, F.neg i.lower⟩

/-- The running minimum `lower = out[0]; for v in out[1..] { lower = lower.min(v) }`
over the four products/quotients computed by `mul` and `div`. -/
def minOf4 (p1 p2 p3 p4 : F) : F := F.min (F.min (F.min p1 p2) p3) p4

/-- The running maximum over the four products/quotients. -/
def maxOf4 (p1 p2 p3 p4 : F) : F := F.max (F.max (F.max p1 p2) p3) p4

/-- `impl Mul for Interval`.  The loop fills
`out = [lo*lo', lo*hi', hi*lo', hi*hi']` and folds min/max over it. -/
def Interval.mul (a b : Interval) : Interval :=
  if a.hasNan || b.hasNan then nanInterval
  else
    ⟨minOf4 (F.mul a.lower b.lower) (F.mul a.lower b.upper)
        (F.mul a.upper b.lower) (F.mul a.upper b.upper),
      maxOf4 (F.mul a.lower b.lower) (F.mul a.lower b.upper)
        (F.mul a.upper b.lower) (F.mul a.upper b.upper)⟩

/-- `impl Div for Interval`. -/
def Interval.div (a b : Interval) : Interval :=
  if a.hasNan then nanInterval
  else if F.lt (.fin 0) b.lower || F.lt b.upper (.fin 0) then
    ⟨minOf4 (F.div a.lower b.lower) (F.div a.lower b.upper)
        (F.div a.upper b.lower) (F.div a.upper b.upper),
      maxOf4 (F.div a.lower b.lower) (F.div a.lower b.upper)
        (F.div a.upper b.lower) (F.div a.upper b.upper)⟩
  else nanInterval

/-- `e` is a correct lower bound for the real `x` (the real sits above the
endpoint).  NaN and `+inf` bound no real from below. -/
def F.lbR : F → ℝ → Prop
  | .nan, _ => False
  | .neginf, _ => True
  | .posinf, _ => False
  | .fin q, x => (q : ℝ) ≤ x

/-- `e` is a correct upper bound for the real `x`. -/
def F.ubR : F → ℝ → Prop
  | .nan, _ => False
  | .neginf, _ => False
  | .posinf, _ => True
  | .fin q, x => x ≤ (q : ℝ)

/-- The real `x` lies between the endpoints of `i` (IEEE reading: no real
lies in an interval with a NaN endpoint). -/
def Interval.memR (i : Interval) (x : ℝ) : Prop :=
  F.lbR i.lower x ∧ F.ubR i.upper x

/-- The variants of `fidget`'s `Error` enum reached by interval evaluation
(`src/error.rs`; the remaining variants concern components outside the
scope of these claims). -/
inductive Error where
  | BadVarSlice (given expected : Nat) : Error
  | BadChoiceSlice (given expected : Nat) : Error
deriving DecidableEq, Repr

/-- Modelled from the spec: the observable interface of the external `Tape`
type (its module is outside the sources under verification); the spec fixes
`choice_count()` and `var_count()` as its observables. -/
structure TapeT where
  choiceCount : Nat
  varCount : Nat
deriving DecidableEq, Repr

/-- Modelled from the spec: an interval back-end (`IntervalEvalT`
implementor, concrete implementations live outside the sources under
verification).  `σ` is the back-end state, `τ` its reusable storage.
`evalB` models `eval_i(x, y, z, vars, &mut choices)`: it receives the
choice buffer, returns the result interval, the written-back buffer, and
the updated back-end state. -/
structure BackendT (σ τ : Type) where
  bnew : TapeT → σ
  bnewWithStorage : TapeT → τ → σ
  evalB : σ → Interval → Interval → Interval → List F → List Choice →
    Interval × List Choice × σ

/-- The `IntervalEval` harness handle: a tape, the choice buffer, and the
back-end state. -/
structure IntervalEval (σ : Type) where
  tape : TapeT
  choices : List Choice
  eval : σ
deriving DecidableEq, Repr

/-- `IntervalEvalStorage`: the detachable choice buffer plus the back-end's
own storage. -/
structure IntervalEvalStorage (τ : Type) where
  choices : List Choice
  inner : τ
deriving DecidableEq, Repr

/-- `IntervalEval::new`. -/
def IntervalEval.new {σ τ : Type} (B : BackendT σ τ) (tape : TapeT) :
    IntervalEval σ :=
  { tape := tape
    choices := List.replicate tape.choiceCount .Unknown
    eval := B.bnew tape }

/-- `Vec::resize(n, v)`: truncate to `n` elements, or extend with copies
of `v`. -/
def vecResize (l : List Choice) (n : Nat) (v : Choice) : List Choice :=
  if n ≤ l.length then l.take n else l ++ List.replicate (n - l.length) v

/-- `IntervalEval::new_with_storage`. -/
def IntervalEval.newWithStorage {σ τ : Type} (B : BackendT σ τ)
    (tape : TapeT) (s : IntervalEvalStorage τ) : IntervalEval σ :=
  { tape := tape
    choices := vecResize s.choices tape.choiceCount .Unknown
    eval := B.bnewWithStorage tape s.inner }

/-- `IntervalEval::reset_choices`: `self.choices.fill(Choice::Unknown)`. -/
def IntervalEval.resetChoices {σ : Type} (e : IntervalEval σ) :
    IntervalEval σ :=
  { e with choices := e.choices.map (fun _ => .Unknown) }

/-- `IntervalEval::choices`: the read-only view of the choice buffer. -/
def IntervalEval.choicesView {σ : Type} (e : IntervalEval σ) : List Choice :=
  e.choices

/-- `IntervalEval::eval_i`: check the vars-slice length, then reset the
choice buffer and delegate to the back-end.  The returned pair is the
`Result` together with the harness state after the call. -/
def IntervalEval.evalI {σ τ : Type} (B : BackendT σ τ) (e : IntervalEval σ)
    (x y z : Interval) (vars : List F) :
    Except Error Interval × IntervalEval σ :=
  if vars.length ≠ e.tape.varCount then
    (.error (.BadVarSlice vars.length e.tape.varCount), e)
  else
    let e' := e.resetChoices
    let r := B.evalB e'.eval x y z vars e'.choices
    (.ok r.1, { e' with choices := r.2.1, eval := r.2.2 })

/-- `IntervalEval::eval_subdiv_recurse`.  At depth 0 delegate to the
back-end; otherwise split the axis of largest width (ties broken x, then
y, then z) at `lo + width/2` and recurse on both halves, threading the
harness state left to right, then merge the two sub-results. -/
def evalSubdivRecurse {σ τ : Type} (B : BackendT σ τ) (e : IntervalEval σ)
    (x y z : Interval) (vars : List F) :
    Nat → Interval × IntervalEval σ
  | 0 =>
    let r := B.evalB e.eval x y z vars e.choices
    (r.1, { e with choices := r.2.1, eval := r.2.2 })
  | k + 1 =>
    let dx := F.sub x.upper x.lower
    let dy := F.sub y.upper y.lower
    let dz := F.sub z.upper z.lower
    let r :=
      if F.le dy dx && F.le dz dx then
        let xmid := F.add x.lower (F.div dx (.fin 2))
        let r1 := evalSubdivRecurse B e ⟨x.lower, xmid⟩ y z vars k
        let r2 := evalSubdivRecurse B r1.2 ⟨xmid, x.upper⟩ y z vars k
        (r1.1, r2.1, r2.2)
      else if F.le dz dy then
        let ymid := F.add y.lower (F.div dy (.fin 2))
        let r1 := evalSubdivRecurse B e x ⟨y.lower, ymid⟩ z vars k
        let r2 := evalSubdivRecurse B r1.2 x ⟨ymid, y.upper⟩ z vars k
        (r1.1, r2.1, r2.2)
      else
        let zmid := F.add z.lower (F.div dz (.fin 2))
        let r1 := evalSubdivRecurse B e x y ⟨z.lower, zmid⟩ vars k
        let r2 := evalSubdivRecurse B r1.2 x y ⟨zmid, z.upper⟩ vars k
        (r1.1, r2.1, r2.2)
    (if r.1.hasNan || r.2.1.hasNan then nanInterval
      else ⟨F.min r.1.lower r.2.1.lower, F.max r.1.upper r.2.1.upper⟩,
      r.2.2)

/-- `IntervalEval::eval_i_subdiv`: reset the choice buffer once, then run
the recursion. -/
def IntervalEval.evalISubdiv {σ τ : Type} (B : BackendT σ τ)
    (e : IntervalEval σ) (x y z : Interval) (vars : List F) (subdiv : Nat) :
    Interval × IntervalEval σ :=
  evalSubdivRecurse B e.resetChoices x y z vars subdiv

/-- A trivial concrete back-end (state and storage are `Unit`): it returns
the interval `[0, 0]` and marks every choice slot `Left`.  Used to
instantiate the harness theorems on concrete inputs. -/
def constBackend : BackendT Unit Unit where
  bnew _ := ()
  bnewWithStorage _ _ := ()
  evalB _ _ _ _ _ ch := (⟨.fin 0, .fin 0⟩, ch.map (fun _ => .Left), ())

/-- A concrete back-end that writes nothing: it returns `[0, 0]` and hands
the choice buffer back unchanged. -/
def passBackend : BackendT Unit Unit where
  bnew _ := ()
  bnewWithStorage _ _ := ()
  evalB _ _ _ _ _ ch := (⟨.fin 0, .fin 0⟩, ch, ())

/-- A concrete stand-in for the abstract endpoint square root used to
instantiate the `sqrt` theorem: exact on the special values, identity on
finite ones. -/
def sqrtStub : F → F
  | .nan => .nan
  | .neginf => .nan
  | .posinf => .posinf
  | .fin q => .fin q

/-- The endpoint is a finite value. -/
def F.finite : F → Bool
  | .fin _ => true
  | _ => false

/-- Every endpoint of the interval is finite or NaN (no infinities). -/
def Interval.noInf (i : Interval) : Prop :=
  (i.lower.finite || i.lower.isNan) = true ∧
    (i.upper.finite || i.upper.isNan) = true

instance (i : Interval) : Decidable i.noInf :=
  inferInstanceAs (Decidable (_ = true ∧ _ = true))

/-! ### Order lemmas for the IEEE comparisons -/

theorem F.lt_irrefl' (a : F) : F.lt a a = false := by
  cases a <;> simp [F.lt]

theorem F.le_trans' {a b c : F} (h1 : F.le a b = true) (h2 : F.le b c = true) :
    F.le a c = true := by
  cases a <;> cases b <;> cases c <;> simp_all [F.le] <;> linarith

theorem F.lt_of_le_of_lt' {a b c : F} (h1 : F.le a b = true)
    (h2 : F.lt b c = true) : F.lt a c = true := by
  cases a <;> cases b <;> cases c <;> simp_all [F.le, F.lt] <;> linarith

theorem F.lt_of_lt_of_le' {a b c : F} (h1 : F.lt a b = true)
    (h2 : F.le b c = true) : F.lt a c = true := by
  cases a <;> cases b <;> cases c <;> simp_all [F.le, F.lt] <;> linarith

theorem F.not_lt_of_le {a b : F} (h : F.le a b = true) : F.lt b a = false := by
  cases a <;> cases b <;> simp_all [F.le, F.lt] <;> linarith

theorem F.lt_of_not_le {a b : F} (ha : a.isNan = false) (hb : b.isNan = false)
    (h : F.le a b = false) : F.lt b a = true := by
  cases a <;> cases b <;> simp_all [F.le, F.lt, F.isNan] <;> linarith

/-- A valid interval with a NaN endpoint is the NaN interval. -/
theorem Interval.nan_of_valid {i : Interval} (hv : i.valid)
    (hn : i.hasNan = true) : i = nanInterval := by
  obtain ⟨l, u⟩ := i
  cases l <;> cases u <;>
    simp_all [Interval.valid, Interval.hasNan, newCheck, F.le, F.isNan,
      nanInterval]

/-- A valid interval without NaN endpoints has IEEE-ordered endpoints. -/
theorem Interval.le_of_valid {i : Interval} (hv : i.valid)
    (hn : i.hasNan = false) : F.le i.lower i.upper = true := by
  obtain ⟨l, u⟩ := i
  cases l <;> cases u <;>
    simp_all [Interval.valid, Interval.hasNan, newCheck, F.le, F.isNan]

/-! ### Real-bound transport lemmas -/

theorem F.lbR_shape {e : F} {x : ℝ} (h : F.lbR e x) :
    e = .neginf ∨ ∃ q : ℚ, e = .fin q ∧ (q : ℝ) ≤ x := by
  cases e with
  | nan => exact h.elim
  | posinf => exact h.elim
  | neginf => exact Or.inl rfl
  | fin q => exact Or.inr ⟨q, rfl, h⟩

theorem F.ubR_shape {e : F} {x : ℝ} (h : F.ubR e x) :
    e = .posinf ∨ ∃ r : ℚ, e = .fin r ∧ x ≤ (r : ℝ) := by
  cases e with
  | nan => exact h.elim
  | neginf => exact h.elim
  | posinf => exact Or.inl rfl
  | fin r => exact Or.inr ⟨r, rfl, h⟩

theorem F.lbR_of_le {a b : F} {x : ℝ} (h : F.le a b = true) (hb : F.lbR b x) :
    F.lbR a x := by
  cases a <;> cases b <;> simp_all [F.le, F.lbR]
  calc ((_ : ℚ) : ℝ) ≤ _ := by exact_mod_cast h
  _ ≤ x := hb

theorem F.ubR_of_ge {a b : F} {x : ℝ} (h : F.le a b = true) (ha : F.ubR a x) :
    F.ubR b x := by
  cases a <;> cases b <;> simp_all [F.le, F.ubR]
  calc x ≤ _ := ha
  _ ≤ ((_ : ℚ) : ℝ) := by exact_mod_cast h

/-! ### Rust min/max lemmas -/

theorem F.min_le_left' {a : F} (b : F) (ha : a.isNan = false) :
    F.le (F.min a b) a = true := by
  cases a <;> cases b <;> simp_all [F.min, F.le, F.isNan, min_le_left]

theorem F.min_le_right' (a : F) {b : F} (hb : b.isNan = false) :
    F.le (F.min a b) b = true := by
  cases a <;> cases b <;> simp_all [F.min, F.le, F.isNan, min_le_right]

theorem F.le_max_left' {a : F} (b : F) (ha : a.isNan = false) :
    F.le a (F.max a b) = true := by
  cases a <;> cases b <;> simp_all [F.max, F.le, F.isNan, le_max_left]

theorem F.le_max_right' (a : F) {b : F} (hb : b.isNan = false) :
    F.le b (F.max a b) = true := by
  cases a <;> cases b <;> simp_all [F.max, F.le, F.isNan, le_max_right]

theorem F.min_isNan (a b : F) :
    (F.min a b).isNan = (a.isNan && b.isNan) := by
  cases a <;> cases b <;> simp [F.min, F.isNan]

theorem F.max_isNan (a b : F) :
    (F.max a b).isNan = (a.isNan && b.isNan) := by
  cases a <;> cases b <;> simp [F.max, F.isNan]

theorem minOf4_isNan (p1 p2 p3 p4 : F) :
    (minOf4 p1 p2 p3 p4).isNan =
      (p1.isNan && p2.isNan && p3.isNan && p4.isNan) := by
  simp [minOf4, F.min_isNan]

theorem maxOf4_isNan (p1 p2 p3 p4 : F) :
    (maxOf4 p1 p2 p3 p4).isNan =
      (p1.isNan && p2.isNan && p3.isNan && p4.isNan) := by
  simp [maxOf4, F.max_isNan]

/-- If some non-NaN entry bounds `v` from below, so does the running
minimum of the four entries. -/
theorem lbR_minOf4 {p1 p2 p3 p4 : F} {v : ℝ}
    (h : (p1.isNan = false ∧ F.lbR p1 v) ∨ (p2.isNan = false ∧ F.lbR p2 v) ∨
      (p3.isNan = false ∧ F.lbR p3 v) ∨ (p4.isNan = false ∧ F.lbR p4 v)) :
    F.lbR (minOf4 p1 p2 p3 p4) v := by
  have h12l : p1.isNan = false → F.le (F.min p1 p2) p1 = true :=
    fun h => F.min_le_left' p2 h
  have h12r : p2.isNan = false → F.le (F.min p1 p2) p2 = true :=
    fun h => F.min_le_right' p1 h
  have h12n : p1.isNan = false ∨ p2.isNan = false →
      (F.min p1 p2).isNan = false := by
    intro h; rw [F.min_isNan]; rcases h with h | h <;> simp [h]
  rcases h with ⟨hn, hb⟩ | ⟨hn, hb⟩ | ⟨hn, hb⟩ | ⟨hn, hb⟩
  · refine F.lbR_of_le ?_ hb
    refine F.le_trans' (F.le_trans' (F.min_le_left' p4 ?_) (F.min_le_left' p3 (h12n (Or.inl hn)))) (h12l hn)
    rw [F.min_isNan, h12n (Or.inl hn)]; rfl
  · refine F.lbR_of_le ?_ hb
    refine F.le_trans' (F.le_trans' (F.min_le_left' p4 ?_) (F.min_le_left' p3 (h12n (Or.inr hn)))) (h12r hn)
    rw [F.min_isNan, h12n (Or.inr hn)]; rfl
  · refine F.lbR_of_le ?_ hb
    refine F.le_trans' (F.min_le_left' p4 ?_) (F.min_le_right' (F.min p1 p2) hn)
    rw [F.min_isNan, hn]; simp
  · exact F.lbR_of_le (F.min_le_right' (F.min (F.min p1 p2) p3) hn) hb

/-- If some non-NaN entry bounds `v` from above, so does the running
maximum of the four entries. -/
theorem ubR_maxOf4 {p1 p2 p3 p4 : F} {v : ℝ}
    (h : (p1.isNan = false ∧ F.ubR p1 v) ∨ (p2.isNan = false ∧ F.ubR p2 v) ∨
      (p3.isNan = false ∧ F.ubR p3 v) ∨ (p4.isNan = false ∧ F.ubR p4 v)) :
    F.ubR (maxOf4 p1 p2 p3 p4) v := by
  have h12l : p1.isNan = false → F.le p1 (F.max p1 p2) = true :=
    fun h => F.le_max_left' p2 h
  have h12r : p2.isNan = false → F.le p2 (F.max p1 p2) = true :=
    fun h => F.le_max_right' p1 h
  have h12n : p1.isNan = false ∨ p2.isNan = false →
      (F.max p1 p2).isNan = false := by
    intro h; rw [F.max_isNan]; rcases h with h | h <;> simp [h]
  rcases h with ⟨hn, hb⟩ | ⟨hn, hb⟩ | ⟨hn, hb⟩ | ⟨hn, hb⟩
  · refine F.ubR_of_ge ?_ hb
    refine F.le_trans' (h12l hn) (F.le_trans' (F.le_max_left' p3 (h12n (Or.inl hn))) (F.le_max_left' p4 ?_))
    rw [F.max_isNan, h12n (Or.inl hn)]; rfl
  · refine F.ubR_of_ge ?_ hb
    refine F.le_trans' (h12r hn) (F.le_trans' (F.le_max_left' p3 (h12n (Or.inr hn))) (F.le_max_left' p4 ?_))
    rw [F.max_isNan, h12n (Or.inr hn)]; rfl
  · refine F.ubR_of_ge ?_ hb
    refine F.le_trans' (F.le_max_right' (F.max p1 p2) hn) (F.le_max_left' p4 ?_)
    rw [F.max_isNan, hn]; simp
  · exact F.ubR_of_ge (F.le_max_right' (F.max (F.max p1 p2) p3) hn) hb

/-! ### Evaluation rules for products with an infinite factor -/

theorem F.mul_posinf_fin {q : ℚ} :
    F.mul .posinf (.fin q) =
      if 0 < q then .posinf else if q < 0 then .neginf else .nan := rfl

theorem F.mul_neginf_fin {q : ℚ} :
    F.mul .neginf (.fin q) =
      if 0 < q then .neginf else if q < 0 then .posinf else .nan := rfl

theorem F.mul_fin_posinf {q : ℚ} :
    F.mul (.fin q) .posinf =
      if 0 < q then .posinf else if q < 0 then .neginf else .nan := rfl

theorem F.mul_fin_neginf {q : ℚ} :
    F.mul (.fin q) .neginf =
      if 0 < q then .neginf else if q < 0 then .posinf else .nan := rfl

/-! ### Corner bounds for products of real bounds -/

theorem rlb_ll {a c x y : ℝ} (ha0 : 0 ≤ a) (hax : a ≤ x) (hcy : c ≤ y)
    (hy0 : 0 ≤ y) : a * c ≤ x * y :=
  calc a * c ≤ a * y := by nlinarith
  _ ≤ x * y := by nlinarith

theorem rlb_ld {a d x y : ℝ} (ha0 : a ≤ 0) (hax : a ≤ x) (hyd : y ≤ d)
    (hy0 : 0 ≤ y) : a * d ≤ x * y :=
  calc a * d ≤ a * y := by nlinarith
  _ ≤ x * y := by nlinarith

theorem rlb_bc {b c x y : ℝ} (hb0 : 0 ≤ b) (hxb : x ≤ b) (hcy : c ≤ y)
    (hy0 : y ≤ 0) : b * c ≤ x * y :=
  calc b * c ≤ b * y := by nlinarith
  _ ≤ x * y := by nlinarith

theorem rlb_bd {b d x y : ℝ} (hb0 : b ≤ 0) (hxb : x ≤ b) (hyd : y ≤ d)
    (hy0 : y ≤ 0) : b * d ≤ x * y :=
  calc b * d ≤ b * y := by nlinarith
  _ ≤ x * y := by nlinarith

theorem rub_dd {b d x y : ℝ} (hb0 : 0 ≤ b) (hxb : x ≤ b) (hyd : y ≤ d)
    (hy0 : 0 ≤ y) : x * y ≤ b * d :=
  calc x * y ≤ b * y := by nlinarith
  _ ≤ b * d := by nlinarith

theorem rub_dc {b c x y : ℝ} (hb0 : b ≤ 0) (hxb : x ≤ b) (hcy : c ≤ y)
    (hy0 : 0 ≤ y) : x * y ≤ b * c :=
  calc x * y ≤ b * y := by nlinarith
  _ ≤ b * c := by nlinarith

theorem rub_ad {a d x y : ℝ} (ha0 : 0 ≤ a) (hax : a ≤ x) (hyd : y ≤ d)
    (hy0 : y ≤ 0) : x * y ≤ a * d :=
  calc x * y ≤ a * y := by nlinarith
  _ ≤ a * d := by nlinarith

theorem rub_ac {a c x y : ℝ} (ha0 : a ≤ 0) (hax : a ≤ x) (hcy : c ≤ y)
    (hy0 : y ≤ 0) : x * y ≤ a * c :=
  calc x * y ≤ a * y := by nlinarith
  _ ≤ a * c := by nlinarith

theorem rlb_xbc {b c x y : ℝ} (hx0 : 0 ≤ x) (hxb : x ≤ b) (hcy : c ≤ y)
    (hc0 : c ≤ 0) : b * c ≤ x * y :=
  calc b * c ≤ x * c := by nlinarith
  _ ≤ x * y := by nlinarith

theorem rlb_xad {a d x y : ℝ} (hx0 : x ≤ 0) (hax : a ≤ x) (hyd : y ≤ d)
    (hd0 : 0 ≤ d) : a * d ≤ x * y :=
  calc a * d ≤ x * d := by nlinarith
  _ ≤ x * y := by nlinarith

theorem rub_xbc {b c x y : ℝ} (hx0 : x ≤ 0) (hxb : x ≤ b) (hcy : c ≤ y)
    (hc0 : 0 ≤ c) : x * y ≤ b * c :=
  calc x * y ≤ x * c := by nlinarith
  _ ≤ b * c := by nlinarith

theorem rub_xad {a d x y : ℝ} (hx0 : 0 ≤ x) (hax : a ≤ x) (hyd : y ≤ d)
    (hd0 : d ≤ 0) : x * y ≤ a * d :=
  calc x * y ≤ x * d := by nlinarith
  _ ≤ a * d := by nlinarith

theorem rub_xbd {b d x y : ℝ} (hx0 : 0 ≤ x) (hxb : x ≤ b) (hyd : y ≤ d)
    (hd0 : 0 ≤ d) : x * y ≤ b * d :=
  calc x * y ≤ x * d := by nlinarith
  _ ≤ b * d := by nlinarith

theorem rub_xac {a c x y : ℝ} (hx0 : x ≤ 0) (hax : a ≤ x) (hcy : c ≤ y)
    (hc0 : c ≤ 0) : x * y ≤ a * c :=
  calc x * y ≤ x * c := by nlinarith
  _ ≤ a * c := by nlinarith

/-- Lower-bound containment for the four-corner product fold: over any pair
of bound shapes the fold either bounds `x * y` from below or every corner
is NaN, which happens exactly when one side is `[0, 0]` and the other is
`[-inf, +inf]`. -/
theorem mulMinBound {l1 u1 l2 u2 : F} {x y : ℝ}
    (h1 : F.lbR l1 x) (h2 : F.ubR u1 x) (h3 : F.lbR l2 y) (h4 : F.ubR u2 y) :
    F.lbR (minOf4 (F.mul l1 l2) (F.mul l1 u2) (F.mul u1 l2) (F.mul u1 u2))
        (x * y) ∨
      (l1 = .neginf ∧ u1 = .posinf ∧ l2 = .fin 0 ∧ u2 = .fin 0) ∨
      (l1 = .fin 0 ∧ u1 = .fin 0 ∧ l2 = .neginf ∧ u2 = .posinf) := by
  rcases F.lbR_shape h1 with rfl | ⟨q1, rfl, hq1⟩ <;>
    rcases F.ubR_shape h2 with rfl | ⟨r1, rfl, hr1⟩ <;>
      rcases F.lbR_shape h3 with rfl | ⟨q2, rfl, hq2⟩ <;>
        rcases F.ubR_shape h4 with rfl | ⟨r2, rfl, hr2⟩
  · -- x in [-inf, +inf], y in [-inf, +inf]: corner lo*hi = -inf
    exact Or.inl (lbR_minOf4 (Or.inr (Or.inl ⟨rfl, trivial⟩)))
  · -- x in [-inf, +inf], y in [-inf, r2]: corner hi*lo = -inf
    exact Or.inl (lbR_minOf4 (Or.inr (Or.inr (Or.inl ⟨rfl, trivial⟩))))
  · -- x in [-inf, +inf], y in [q2, +inf]: corner lo*hi = -inf
    exact Or.inl (lbR_minOf4 (Or.inr (Or.inl ⟨rfl, trivial⟩)))
  · -- x in [-inf, +inf], y in [q2, r2]
    rcases lt_or_le q2 0 with h | h
    · refine Or.inl (lbR_minOf4 (Or.inr (Or.inr (Or.inl ?_))))
      have e : F.mul .posinf (.fin q2) = .neginf := by
        rw [F.mul_posinf_fin, if_neg (by linarith), if_pos h]
      rw [e]; exact ⟨rfl, trivial⟩
    · rcases lt_or_le 0 r2 with h' | h'
      · refine Or.inl (lbR_minOf4 (Or.inr (Or.inl ?_)))
        have e : F.mul .neginf (.fin r2) = .neginf := by
          rw [F.mul_neginf_fin, if_pos h']
        rw [e]; exact ⟨rfl, trivial⟩
      · have hy0 : (0 : ℝ) ≤ y := le_trans (by exact_mod_cast h) hq2
        have hy0' : y ≤ 0 := le_trans hr2 (by exact_mod_cast h')
        have hq2z : q2 = 0 := le_antisymm (by
          have : (q2 : ℝ) ≤ 0 := le_trans hq2 hy0'
          exact_mod_cast this) h
        have hr2z : r2 = 0 := le_antisymm h' (by
          have : (0 : ℝ) ≤ (r2 : ℝ) := le_trans hy0 hr2
          exact_mod_cast this)
        exact Or.inr (Or.inl ⟨rfl, rfl, by rw [hq2z], by rw [hr2z]⟩)
  · -- x in [-inf, r1], y in [-inf, +inf]: corner lo*hi = -inf
    exact Or.inl (lbR_minOf4 (Or.inr (Or.inl ⟨rfl, trivial⟩)))
  · -- x in [-inf, r1], y in [-inf, r2]
    rcases lt_or_le 0 r2 with h | h
    · refine Or.inl (lbR_minOf4 (Or.inr (Or.inl ?_)))
      have e : F.mul .neginf (.fin r2) = .neginf := by
        rw [F.mul_neginf_fin, if_pos h]
      rw [e]; exact ⟨rfl, trivial⟩
    · rcases lt_or_le 0 r1 with h' | h'
      · refine Or.inl (lbR_minOf4 (Or.inr (Or.inr (Or.inl ?_))))
        have e : F.mul (.fin r1) .neginf = .neginf := by
          rw [F.mul_fin_neginf, if_pos h']
        rw [e]; exact ⟨rfl, trivial⟩
      · refine Or.inl (lbR_minOf4 (Or.inr (Or.inr (Or.inr ⟨rfl, ?_⟩))))
        show ((r1 * r2 : ℚ) : ℝ) ≤ x * y
        push_cast
        exact rlb_bd (by exact_mod_cast h') hr1 hr2
          (le_trans hr2 (by exact_mod_cast h))
  · -- x in [-inf, r1], y in [q2, +inf]: corner lo*hi = -inf
    exact Or.inl (lbR_minOf4 (Or.inr (Or.inl ⟨rfl, trivial⟩)))
  · -- x in [-inf, r1], y in [q2, r2]
    rcases lt_or_le 0 r2 with h | h
    · refine Or.inl (lbR_minOf4 (Or.inr (Or.inl ?_)))
      have e : F.mul .neginf (.fin r2) = .neginf := by
        rw [F.mul_neginf_fin, if_pos h]
      rw [e]; exact ⟨rfl, trivial⟩
    · have hy0 : y ≤ 0 := le_trans hr2 (by exact_mod_cast h)
      rcases le_or_lt 0 r1 with h' | h'
      · refine Or.inl (lbR_minOf4 (Or.inr (Or.inr (Or.inl ⟨rfl, ?_⟩))))
        show ((r1 * q2 : ℚ) : ℝ) ≤ x * y
        push_cast
        exact rlb_bc (by exact_mod_cast h') hr1 hq2 hy0
      · refine Or.inl (lbR_minOf4 (Or.inr (Or.inr (Or.inr ⟨rfl, ?_⟩))))
        show ((r1 * r2 : ℚ) : ℝ) ≤ x * y
        push_cast
        exact rlb_bd (by exact_mod_cast h'.le) hr1 hr2 hy0
  · -- x in [q1, +inf], y in [-inf, +inf]: corner hi*lo = -inf
    exact Or.inl (lbR_minOf4 (Or.inr (Or.inr (Or.inl ⟨rfl, trivial⟩))))
  · -- x in [q1, +inf], y in [-inf, r2]: corner hi*lo = -inf
    exact Or.inl (lbR_minOf4 (Or.inr (Or.inr (Or.inl ⟨rfl, trivial⟩))))
  · -- x in [q1, +inf], y in [q2, +inf]
    rcases lt_or_le q1 0 with h | h
    · refine Or.inl (lbR_minOf4 (Or.inr (Or.inl ?_)))
      have e : F.mul (.fin q1) .posinf = .neginf := by
        rw [F.mul_fin_posinf, if_neg (by linarith), if_pos h]
      rw [e]; exact ⟨rfl, trivial⟩
    · rcases lt_or_le q2 0 with h' | h'
      · refine Or.inl (lbR_minOf4 (Or.inr (Or.inr (Or.inl ?_))))
        have e : F.mul .posinf (.fin q2) = .neginf := by
          rw [F.mul_posinf_fin, if_neg (by linarith), if_pos h']
        rw [e]; exact ⟨rfl, trivial⟩
      · refine Or.inl (lbR_minOf4 (Or.inl ⟨rfl, ?_⟩))
        show ((q1 * q2 : ℚ) : ℝ) ≤ x * y
        push_cast
        exact rlb_ll (by exact_mod_cast h) hq1 hq2
          (le_trans (by exact_mod_cast h') hq2)
  · -- x in [q1, +inf], y in [q2, r2]
    rcases lt_or_le q2 0 with h | h
    · refine Or.inl (lbR_minOf4 (Or.inr (Or.inr (Or.inl ?_))))
      have e : F.mul .posinf (.fin q2) = .neginf := by
        rw [F.mul_posinf_fin, if_neg (by linarith), if_pos h]
      rw [e]; exact ⟨rfl, trivial⟩
    · have hy0 : (0 : ℝ) ≤ y := le_trans (by exact_mod_cast h) hq2
      rcases le_or_lt 0 q1 with h' | h'
      · refine Or.inl (lbR_minOf4 (Or.inl ⟨rfl, ?_⟩))
        show ((q1 * q2 : ℚ) : ℝ) ≤ x * y
        push_cast
        exact rlb_ll (by exact_mod_cast h') hq1 hq2 hy0
      · refine Or.inl (lbR_minOf4 (Or.inr (Or.inl ⟨rfl, ?_⟩)))
        show ((q1 * r2 : ℚ) : ℝ) ≤ x * y
        push_cast
        exact rlb_ld (by exact_mod_cast h'.le) hq1 hr2 hy0
  · -- x in [q1, r1], y in [-inf, +inf]
    rcases lt_or_le q1 0 with h | h
    · refine Or.inl (lbR_minOf4 (Or.inr (Or.inl ?_)))
      have e : F.mul (.fin q1) .posinf = .neginf := by
        rw [F.mul_fin_posinf, if_neg (by linarith), if_pos h]
      rw [e]; exact ⟨rfl, trivial⟩
    · rcases lt_or_le 0 r1 with h' | h'
      · refine Or.inl (lbR_minOf4 (Or.inr (Or.inr (Or.inl ?_))))
        have e : F.mul (.fin r1) .neginf = .neginf := by
          rw [F.mul_fin_neginf, if_pos h']
        rw [e]; exact ⟨rfl, trivial⟩
      · have hq1z : q1 = 0 := le_antisymm (by
          have : (q1 : ℝ) ≤ 0 := le_trans hq1 (le_trans hr1 (by exact_mod_cast h'))
          exact_mod_cast this) h
        have hr1z : r1 = 0 := le_antisymm h' (by
          have : (0 : ℝ) ≤ (r1 : ℝ) := le_trans (le_trans (by exact_mod_cast h) hq1) hr1
          exact_mod_cast this)
        exact Or.inr (Or.inr ⟨by rw [hq1z], by rw [hr1z], rfl, rfl⟩)
  · -- x in [q1, r1], y in [-inf, r2]
    rcases lt_or_le 0 r1 with h | h
    · refine Or.inl (lbR_minOf4 (Or.inr (Or.inr (Or.inl ?_))))
      have e : F.mul (.fin r1) .neginf = .neginf := by
        rw [F.mul_fin_neginf, if_pos h]
      rw [e]; exact ⟨rfl, trivial⟩
    · have hx0 : x ≤ 0 := le_trans hr1 (by exact_mod_cast h)
      rcases le_or_lt 0 r2 with h' | h'
      · refine Or.inl (lbR_minOf4 (Or.inr (Or.inl ⟨rfl, ?_⟩)))
        show ((q1 * r2 : ℚ) : ℝ) ≤ x * y
        push_cast
        exact rlb_xad hx0 hq1 hr2 (by exact_mod_cast h')
      · refine Or.inl (lbR_minOf4 (Or.inr (Or.inr (Or.inr ⟨rfl, ?_⟩))))
        show ((r1 * r2 : ℚ) : ℝ) ≤ x * y
        push_cast
        exact rlb_bd (by exact_mod_cast h) hr1 hr2
          (le_trans hr2 (by exact_mod_cast h'.le))
  · -- x in [q1, r1], y in [q2, +inf]
    rcases lt_or_le q1 0 with h | h
    · refine Or.inl (lbR_minOf4 (Or.inr (Or.inl ?_)))
      have e : F.mul (.fin q1) .posinf = .neginf := by
        rw [F.mul_fin_posinf, if_neg (by linarith), if_pos h]
      rw [e]; exact ⟨rfl, trivial⟩
    · rcases le_or_lt 0 q2 with h' | h'
      · refine Or.inl (lbR_minOf4 (Or.inl ⟨rfl, ?_⟩))
        show ((q1 * q2 : ℚ) : ℝ) ≤ x * y
        push_cast
        exact rlb_ll (by exact_mod_cast h) hq1 hq2
          (le_trans (by exact_mod_cast h') hq2)
      · refine Or.inl (lbR_minOf4 (Or.inr (Or.inr (Or.inl ⟨rfl, ?_⟩))))
        show ((r1 * q2 : ℚ) : ℝ) ≤ x * y
        push_cast
        exact rlb_xbc (le_trans (by exact_mod_cast h) hq1) hr1 hq2
          (by exact_mod_cast h'.le)
  · -- x in [q1, r1], y in [q2, r2]: all corners finite
    rcases le_or_lt 0 y with hy | hy
    · rcases le_or_lt 0 q1 with h | h
      · refine Or.inl (lbR_minOf4 (Or.inl ⟨rfl, ?_⟩))
        show ((q1 * q2 : ℚ) : ℝ) ≤ x * y
        push_cast
        exact rlb_ll (by exact_mod_cast h) hq1 hq2 hy
      · refine Or.inl (lbR_minOf4 (Or.inr (Or.inl ⟨rfl, ?_⟩)))
        show ((q1 * r2 : ℚ) : ℝ) ≤ x * y
        push_cast
        exact rlb_ld (by exact_mod_cast h.le) hq1 hr2 hy
    · rcases le_or_lt 0 r1 with h | h
      · refine Or.inl (lbR_minOf4 (Or.inr (Or.inr (Or.inl ⟨rfl, ?_⟩))))
        show ((r1 * q2 : ℚ) : ℝ) ≤ x * y
        push_cast
        exact rlb_bc (by exact_mod_cast h) hr1 hq2 hy.le
      · refine Or.inl (lbR_minOf4 (Or.inr (Or.inr (Or.inr ⟨rfl, ?_⟩))))
        show ((r1 * r2 : ℚ) : ℝ) ≤ x * y
        push_cast
        exact rlb_bd (by exact_mod_cast h.le) hr1 hr2 hy.le

/-- Upper-bound containment for the four-corner product fold, dual to
`mulMinBound`. -/
theorem mulMaxBound {l1 u1 l2 u2 : F} {x y : ℝ}
    (h1 : F.lbR l1 x) (h2 : F.ubR u1 x) (h3 : F.lbR l2 y) (h4 : F.ubR u2 y) :
    F.ubR (maxOf4 (F.mul l1 l2) (F.mul l1 u2) (F.mul u1 l2) (F.mul u1 u2))
        (x * y) ∨
      (l1 = .neginf ∧ u1 = .posinf ∧ l2 = .fin 0 ∧ u2 = .fin 0) ∨
      (l1 = .fin 0 ∧ u1 = .fin 0 ∧ l2 = .neginf ∧ u2 = .posinf) := by
  rcases F.lbR_shape h1 with rfl | ⟨q1, rfl, hq1⟩ <;>
    rcases F.ubR_shape h2 with rfl | ⟨r1, rfl, hr1⟩ <;>
      rcases F.lbR_shape h3 with rfl | ⟨q2, rfl, hq2⟩ <;>
        rcases F.ubR_shape h4 with rfl | ⟨r2, rfl, hr2⟩
  · -- x in [-inf, +inf], y in [-inf, +inf]: corner lo*lo = +inf
    exact Or.inl (ubR_maxOf4 (Or.inl ⟨rfl, trivial⟩))
  · -- x in [-inf, +inf], y in [-inf, r2]: corner lo*lo = +inf
    exact Or.inl (ubR_maxOf4 (Or.inl ⟨rfl, trivial⟩))
  · -- x in [-inf, +inf], y in [q2, +inf]: corner hi*hi = +inf
    exact Or.inl (ubR_maxOf4 (Or.inr (Or.inr (Or.inr ⟨rfl, trivial⟩))))
  · -- x in [-inf, +inf], y in [q2, r2]
    rcases lt_or_le q2 0 with h | h
    · refine Or.inl (ubR_maxOf4 (Or.inl ?_))
      have e : F.mul .neginf (.fin q2) = .posinf := by
        rw [F.mul_neginf_fin, if_neg (by linarith), if_pos h]
      rw [e]; exact ⟨rfl, trivial⟩
    · rcases lt_or_le 0 r2 with h' | h'
      · refine Or.inl (ubR_maxOf4 (Or.inr (Or.inr (Or.inr ?_))))
        have e : F.mul .posinf (.fin r2) = .posinf := by
          rw [F.mul_posinf_fin, if_pos h']
        rw [e]; exact ⟨rfl, trivial⟩
      · have hy0 : (0 : ℝ) ≤ y := le_trans (by exact_mod_cast h) hq2
        have hy0' : y ≤ 0 := le_trans hr2 (by exact_mod_cast h')
        have hq2z : q2 = 0 := le_antisymm (by
          have : (q2 : ℝ) ≤ 0 := le_trans hq2 hy0'
          exact_mod_cast this) h
        have hr2z : r2 = 0 := le_antisymm h' (by
          have : (0 : ℝ) ≤ (r2 : ℝ) := le_trans hy0 hr2
          exact_mod_cast this)
        exact Or.inr (Or.inl ⟨rfl, rfl, by rw [hq2z], by rw [hr2z]⟩)
  · -- x in [-inf, r1], y in [-inf, +inf]: corner lo*lo = +inf
    exact Or.inl (ubR_maxOf4 (Or.inl ⟨rfl, trivial⟩))
  · -- x in [-inf, r1], y in [-inf, r2]: corner lo*lo = +inf
    exact Or.inl (ubR_maxOf4 (Or.inl ⟨rfl, trivial⟩))
  · -- x in [-inf, r1], y in [q2, +inf]
    rcases lt_or_le q2 0 with h | h
    · refine Or.inl (ubR_maxOf4 (Or.inl ?_))
      have e : F.mul .neginf (.fin q2) = .posinf := by
        rw [F.mul_neginf_fin, if_neg (by linarith), if_pos h]
      rw [e]; exact ⟨rfl, trivial⟩
    · rcases lt_or_le 0 r1 with h' | h'
      · refine Or.inl (ubR_maxOf4 (Or.inr (Or.inr (Or.inr ?_))))
        have e : F.mul (.fin r1) .posinf = .posinf := by
          rw [F.mul_fin_posinf, if_pos h']
        rw [e]; exact ⟨rfl, trivial⟩
      · refine Or.inl (ubR_maxOf4 (Or.inr (Or.inr (Or.inl ⟨rfl, ?_⟩))))
        show x * y ≤ ((r1 * q2 : ℚ) : ℝ)
        push_cast
        exact rub_xbc (le_trans hr1 (by exact_mod_cast h')) hr1 hq2
          (by exact_mod_cast h)
  · -- x in [-inf, r1], y in [q2, r2]
    rcases lt_or_le q2 0 with h | h
    · refine Or.inl (ubR_maxOf4 (Or.inl ?_))
      have e : F.mul .neginf (.fin q2) = .posinf := by
        rw [F.mul_neginf_fin, if_neg (by linarith), if_pos h]
      rw [e]; exact ⟨rfl, trivial⟩
    · have hy0 : (0 : ℝ) ≤ y := le_trans (by exact_mod_cast h) hq2
      rcases le_or_lt 0 r1 with h' | h'
      · refine Or.inl (ubR_maxOf4 (Or.inr (Or.inr (Or.inr ⟨rfl, ?_⟩))))
        show x * y ≤ ((r1 * r2 : ℚ) : ℝ)
        push_cast
        exact rub_dd (by exact_mod_cast h') hr1 hr2 hy0
      · refine Or.inl (ubR_maxOf4 (Or.inr (Or.inr (Or.inl ⟨rfl, ?_⟩))))
        show x * y ≤ ((r1 * q2 : ℚ) : ℝ)
        push_cast
        exact rub_dc (by exact_mod_cast h'.le) hr1 hq2 hy0
  · -- x in [q1, +inf], y in [-inf, +inf]: corner hi*hi = +inf
    exact Or.inl (ubR_maxOf4 (Or.inr (Or.inr (Or.inr ⟨rfl, trivial⟩))))
  · -- x in [q1, +inf], y in [-inf, r2]
    rcases lt_or_le 0 r2 with h | h
    · refine Or.inl (ubR_maxOf4 (Or.inr (Or.inr (Or.inr ?_))))
      have e : F.mul .posinf (.fin r2) = .posinf := by
        rw [F.mul_posinf_fin, if_pos h]
      rw [e]; exact ⟨rfl, trivial⟩
    · rcases le_or_lt 0 q1 with h' | h'
      · refine Or.inl (ubR_maxOf4 (Or.inr (Or.inl ⟨rfl, ?_⟩)))
        show x * y ≤ ((q1 * r2 : ℚ) : ℝ)
        push_cast
        exact rub_xad (le_trans (by exact_mod_cast h') hq1) hq1 hr2
          (by exact_mod_cast h)
      · refine Or.inl (ubR_maxOf4 (Or.inl ?_))
        have e : F.mul (.fin q1) .neginf = .posinf := by
          rw [F.mul_fin_neginf, if_neg (by linarith), if_pos h']
        rw [e]; exact ⟨rfl, trivial⟩
  · -- x in [q1, +inf], y in [q2, +inf]: corner hi*hi = +inf
    exact Or.inl (ubR_maxOf4 (Or.inr (Or.inr (Or.inr ⟨rfl, trivial⟩))))
  · -- x in [q1, +inf], y in [q2, r2]
    rcases lt_or_le 0 r2 with h | h
    · refine Or.inl (ubR_maxOf4 (Or.inr (Or.inr (Or.inr ?_))))
      have e : F.mul .posinf (.fin r2) = .posinf := by
        rw [F.mul_posinf_fin, if_pos h]
      rw [e]; exact ⟨rfl, trivial⟩
    · have hy0 : y ≤ 0 := le_trans hr2 (by exact_mod_cast h)
      rcases le_or_lt 0 q1 with h' | h'
      · refine Or.inl (ubR_maxOf4 (Or.inr (Or.inl ⟨rfl, ?_⟩)))
        show x * y ≤ ((q1 * r2 : ℚ) : ℝ)
        push_cast
        exact rub_ad (by exact_mod_cast h') hq1 hr2 hy0
      · refine Or.inl (ubR_maxOf4 (Or.inl ⟨rfl, ?_⟩))
        show x * y ≤ ((q1 * q2 : ℚ) : ℝ)
        push_cast
        exact rub_ac (by exact_mod_cast h'.le) hq1 hq2 hy0
  · -- x in [q1, r1], y in [-inf, +inf]
    rcases lt_or_le q1 0 with h | h
    · refine Or.inl (ubR_maxOf4 (Or.inl ?_))
      have e : F.mul (.fin q1) .neginf = .posinf := by
        rw [F.mul_fin_neginf, if_neg (by linarith), if_pos h]
      rw [e]; exact ⟨rfl, trivial⟩
    · rcases lt_or_le 0 r1 with h' | h'
      · refine Or.inl (ubR_maxOf4 (Or.inr (Or.inr (Or.inr ?_))))
        have e : F.mul (.fin r1) .posinf = .posinf := by
          rw [F.mul_fin_posinf, if_pos h']
        rw [e]; exact ⟨rfl, trivial⟩
      · have hq1z : q1 = 0 := le_antisymm (by
          have : (q1 : ℝ) ≤ 0 := le_trans hq1 (le_trans hr1 (by exact_mod_cast h'))
          exact_mod_cast this) h
        have hr1z : r1 = 0 := le_antisymm h' (by
          have : (0 : ℝ) ≤ (r1 : ℝ) := le_trans (le_trans (by exact_mod_cast h) hq1) hr1
          exact_mod_cast this)
        exact Or.inr (Or.inr ⟨by rw [hq1z], by rw [hr1z], rfl, rfl⟩)
  · -- x in [q1, r1], y in [-inf, r2]
    rcases lt_or_le q1 0 with h | h
    · refine Or.inl (ubR_maxOf4 (Or.inl ?_))
      have e : F.mul (.fin q1) .neginf = .posinf := by
        rw [F.mul_fin_neginf, if_neg (by linarith), if_pos h]
      rw [e]; exact ⟨rfl, trivial⟩
    · have hx0 : (0 : ℝ) ≤ x := le_trans (by exact_mod_cast h) hq1
      rcases le_or_lt 0 r2 with h' | h'
      · refine Or.inl (ubR_maxOf4 (Or.inr (Or.inr (Or.inr ⟨rfl, ?_⟩))))
        show x * y ≤ ((r1 * r2 : ℚ) : ℝ)
        push_cast
        exact rub_xbd hx0 hr1 hr2 (by exact_mod_cast h')
      · refine Or.inl (ubR_maxOf4 (Or.inr (Or.inl ⟨rfl, ?_⟩)))
        show x * y ≤ ((q1 * r2 : ℚ) : ℝ)
        push_cast
        exact rub_xad hx0 hq1 hr2 (by exact_mod_cast h'.le)
  · -- x in [q1, r1], y in [q2, +inf]
    rcases lt_or_le 0 r1 with h | h
    · refine Or.inl (ubR_maxOf4 (Or.inr (Or.inr (Or.inr ?_))))
      have e : F.mul (.fin r1) .posinf = .posinf := by
        rw [F.mul_fin_posinf, if_pos h]
      rw [e]; exact ⟨rfl, trivial⟩
    · have hx0 : x ≤ 0 := le_trans hr1 (by exact_mod_cast h)
      rcases le_or_lt 0 q2 with h' | h'
      · refine Or.inl (ubR_maxOf4 (Or.inr (Or.inr (Or.inl ⟨rfl, ?_⟩))))
        show x * y ≤ ((r1 * q2 : ℚ) : ℝ)
        push_cast
        exact rub_xbc hx0 hr1 hq2 (by exact_mod_cast h')
      · refine Or.inl (ubR_maxOf4 (Or.inl ⟨rfl, ?_⟩))
        show x * y ≤ ((q1 * q2 : ℚ) : ℝ)
        push_cast
        exact rub_xac hx0 hq1 hq2 (by exact_mod_cast h'.le)
  · -- x in [q1, r1], y in [q2, r2]: all corners finite
    rcases le_or_lt 0 y with hy | hy
    · rcases le_or_lt 0 r1 with h | h
      · refine Or.inl (ubR_maxOf4 (Or.inr (Or.inr (Or.inr ⟨rfl, ?_⟩))))
        show x * y ≤ ((r1 * r2 : ℚ) : ℝ)
        push_cast
        exact rub_dd (by exact_mod_cast h) hr1 hr2 hy
      · refine Or.inl (ubR_maxOf4 (Or.inr (Or.inr (Or.inl ⟨rfl, ?_⟩))))
        show x * y ≤ ((r1 * q2 : ℚ) : ℝ)
        push_cast
        exact rub_dc (by exact_mod_cast h.le) hr1 hq2 hy
    · rcases le_or_lt 0 q1 with h | h
      · refine Or.inl (ubR_maxOf4 (Or.inr (Or.inl ⟨rfl, ?_⟩)))
        show x * y ≤ ((q1 * r2 : ℚ) : ℝ)
        push_cast
        exact rub_ad (by exact_mod_cast h) hq1 hr2 hy.le
      · refine Or.inl (ubR_maxOf4 (Or.inl ⟨rfl, ?_⟩))
        show x * y ≤ ((q1 * q2 : ℚ) : ℝ)
        push_cast
        exact rub_ac (by exact_mod_cast h.le) hq1 hq2 hy.le

/-! ### Endpoint bounds for the remaining arithmetic operations -/

theorem F.lbR_add {l1 l2 : F} {x y : ℝ} (h1 : F.lbR l1 x) (h2 : F.lbR l2 y) :
    F.lbR (F.add l1 l2) (x + y) := by
  rcases F.lbR_shape h1 with rfl | ⟨q1, rfl, hq1⟩ <;>
    rcases F.lbR_shape h2 with rfl | ⟨q2, rfl, hq2⟩
  · trivial
  · trivial
  · trivial
  · show ((q1 + q2 : ℚ) : ℝ) ≤ x + y
    push_cast; linarith

theorem F.ubR_add {u1 u2 : F} {x y : ℝ} (h1 : F.ubR u1 x) (h2 : F.ubR u2 y) :
    F.ubR (F.add u1 u2) (x + y) := by
  rcases F.ubR_shape h1 with rfl | ⟨r1, rfl, hr1⟩ <;>
    rcases F.ubR_shape h2 with rfl | ⟨r2, rfl, hr2⟩
  · trivial
  · trivial
  · trivial
  · show x + y ≤ ((r1 + r2 : ℚ) : ℝ)
    push_cast; linarith

theorem F.lbR_sub {l1 u2 : F} {x y : ℝ} (h1 : F.lbR l1 x) (h2 : F.ubR u2 y) :
    F.lbR (F.sub l1 u2) (x - y) := by
  rcases F.lbR_shape h1 with rfl | ⟨q1, rfl, hq1⟩ <;>
    rcases F.ubR_shape h2 with rfl | ⟨r2, rfl, hr2⟩
  · trivial
  · trivial
  · trivial
  · show ((q1 + -r2 : ℚ) : ℝ) ≤ x - y
    push_cast; linarith

theorem F.ubR_sub {u1 l2 : F} {x y : ℝ} (h1 : F.ubR u1 x) (h2 : F.lbR l2 y) :
    F.ubR (F.sub u1 l2) (x - y) := by
  rcases F.ubR_shape h1 with rfl | ⟨r1, rfl, hr1⟩ <;>
    rcases F.lbR_shape h2 with rfl | ⟨q2, rfl, hq2⟩
  · trivial
  · trivial
  · trivial
  · show x - y ≤ ((r1 + -q2 : ℚ) : ℝ)
    push_cast; linarith

theorem F.lbR_neg {u : F} {x : ℝ} (h : F.ubR u x) : F.lbR (F.neg u) (-x) := by
  rcases F.ubR_shape h with rfl | ⟨r, rfl, hr⟩
  · trivial
  · show ((-r : ℚ) : ℝ) ≤ -x
    push_cast; linarith

theorem F.ubR_neg {l : F} {x : ℝ} (h : F.lbR l x) : F.ubR (F.neg l) (-x) := by
  rcases F.lbR_shape h with rfl | ⟨q, rfl, hq⟩
  · trivial
  · show -x ≤ ((-q : ℚ) : ℝ)
    push_cast; linarith

theorem F.lbR_min {l1 l2 : F} {x y : ℝ} (h1 : F.lbR l1 x) (h2 : F.lbR l2 y) :
    F.lbR (F.min l1 l2) (Min.min x y) := by
  rcases F.lbR_shape h1 with rfl | ⟨q1, rfl, hq1⟩ <;>
    rcases F.lbR_shape h2 with rfl | ⟨q2, rfl, hq2⟩
  · trivial
  · trivial
  · trivial
  · show ((Min.min q1 q2 : ℚ) : ℝ) ≤ Min.min x y
    push_cast
    exact min_le_min hq1 hq2

theorem F.ubR_min {u1 u2 : F} {x y : ℝ} (h1 : F.ubR u1 x) (h2 : F.ubR u2 y) :
    F.ubR (F.min u1 u2) (Min.min x y) := by
  rcases F.ubR_shape h1 with rfl | ⟨r1, rfl, hr1⟩ <;>
    rcases F.ubR_shape h2 with rfl | ⟨r2, rfl, hr2⟩
  · trivial
  · exact le_trans (min_le_right x y) hr2
  · exact le_trans (min_le_left x y) hr1
  · show Min.min x y ≤ ((Min.min r1 r2 : ℚ) : ℝ)
    push_cast
    exact min_le_min hr1 hr2

theorem F.lbR_max {l1 l2 : F} {x y : ℝ} (h1 : F.lbR l1 x) (h2 : F.lbR l2 y) :
    F.lbR (F.max l1 l2) (Max.max x y) := by
  rcases F.lbR_shape h1 with rfl | ⟨q1, rfl, hq1⟩ <;>
    rcases F.lbR_shape h2 with rfl | ⟨q2, rfl, hq2⟩
  · trivial
  · exact le_trans hq2 (le_max_right x y)
  · exact le_trans hq1 (le_max_left x y)
  · show ((Max.max q1 q2 : ℚ) : ℝ) ≤ Max.max x y
    push_cast
    exact max_le_max hq1 hq2

theorem F.ubR_max {u1 u2 : F} {x y : ℝ} (h1 : F.ubR u1 x) (h2 : F.ubR u2 y) :
    F.ubR (F.max u1 u2) (Max.max x y) := by
  rcases F.ubR_shape h1 with rfl | ⟨r1, rfl, hr1⟩ <;>
    rcases F.ubR_shape h2 with rfl | ⟨r2, rfl, hr2⟩
  · trivial
  · trivial
  · trivial
  · show Max.max x y ≤ ((Max.max r1 r2 : ℚ) : ℝ)
    push_cast
    exact max_le_max hr1 hr2

/-- If the IEEE comparison separates an upper endpoint from a lower
endpoint, the bounded reals are separated as well. -/
theorem F.lt_sep {u l : F} {x y : ℝ} (hu : F.ubR u x) (hl : F.lbR l y)
    (h : F.lt u l = true) : x < y := by
  rcases F.ubR_shape hu with rfl | ⟨r, rfl, hr⟩ <;>
    rcases F.lbR_shape hl with rfl | ⟨q, rfl, hq⟩
  · exact absurd h (by simp [F.lt])
  · exact absurd h (by simp [F.lt])
  · exact absurd h (by simp [F.lt])
  · simp only [F.lt, decide_eq_true_eq] at h
    calc x ≤ (r : ℝ) := hr
    _ < (q : ℝ) := by exact_mod_cast h
    _ ≤ y := hq

/-- Containment for `Interval::abs`. -/
theorem Interval.memR_abs {a : Interval} {x : ℝ} (h : a.memR x) :
    (a.abs).memR |x| := by
  obtain ⟨l, u⟩ := a
  obtain ⟨h1, h2⟩ := h
  rcases F.lbR_shape h1 with rfl | ⟨q, rfl, hq⟩ <;>
    rcases F.ubR_shape h2 with rfl | ⟨r, rfl, hr⟩
  · have e : Interval.abs ⟨.neginf, .posinf⟩ = ⟨.fin 0, .posinf⟩ := by
      simp [Interval.abs, F.lt, F.max, F.neg]
    rw [e]
    exact ⟨by simp only [F.lbR, Rat.cast_zero]; positivity, trivial⟩
  · rcases lt_or_le 0 r with h0 | h0
    · have e : Interval.abs ⟨.neginf, .fin r⟩ = ⟨.fin 0, .posinf⟩ := by
        simp [Interval.abs, F.lt, F.max, F.neg, h0]
      rw [e]
      exact ⟨by simp only [F.lbR, Rat.cast_zero]; positivity, trivial⟩
    · have e : Interval.abs ⟨.neginf, .fin r⟩ = ⟨.fin (-r), .posinf⟩ := by
        simp [Interval.abs, F.lt, F.neg, not_lt.mpr h0]
      rw [e]
      refine ⟨?_, trivial⟩
      show ((-r : ℚ) : ℝ) ≤ |x|
      have hx0 : x ≤ 0 := le_trans hr (by exact_mod_cast h0)
      rw [abs_of_nonpos hx0]
      push_cast; linarith
  · rcases lt_or_le q 0 with h0 | h0
    · have e : Interval.abs ⟨.fin q, .posinf⟩ = ⟨.fin 0, .posinf⟩ := by
        simp [Interval.abs, F.lt, F.max, F.neg, h0]
      rw [e]
      exact ⟨by simp only [F.lbR, Rat.cast_zero]; positivity, trivial⟩
    · have e : Interval.abs ⟨.fin q, .posinf⟩ = ⟨.fin q, .posinf⟩ := by
        simp [Interval.abs, F.lt, not_lt.mpr h0]
      rw [e]
      exact ⟨le_trans hq (le_abs_self x), trivial⟩
  · rcases lt_or_le q 0 with h0 | h0
    · rcases lt_or_le 0 r with h0' | h0'
      · have e : Interval.abs ⟨.fin q, .fin r⟩ =
            ⟨.fin 0, .fin (Max.max r (-q))⟩ := by
          simp [Interval.abs, F.lt, F.max, F.neg, h0, h0']
        rw [e]
        refine ⟨by simp only [F.lbR, Rat.cast_zero]; positivity, ?_⟩
        show |x| ≤ ((Max.max r (-q) : ℚ) : ℝ)
        push_cast
        rcases abs_cases x with ⟨ex, _⟩ | ⟨ex, _⟩ <;> rw [ex]
        · exact le_trans hr (le_max_left _ _)
        · refine le_trans ?_ (le_max_right (r : ℝ) (-(q : ℝ)))
          linarith
      · have e : Interval.abs ⟨.fin q, .fin r⟩ = ⟨.fin (-r), .fin (-q)⟩ := by
          simp [Interval.abs, F.lt, F.neg, h0, not_lt.mpr h0']
        rw [e]
        have hx0 : x ≤ 0 := le_trans hr (by exact_mod_cast h0')
        refine ⟨?_, ?_⟩
        · show ((-r : ℚ) : ℝ) ≤ |x|
          rw [abs_of_nonpos hx0]; push_cast; linarith
        · show |x| ≤ ((-q : ℚ) : ℝ)
          rw [abs_of_nonpos hx0]; push_cast; linarith
    · have e : Interval.abs ⟨.fin q, .fin r⟩ = ⟨.fin q, .fin r⟩ := by
        simp [Interval.abs, F.lt, not_lt.mpr h0]
      rw [e]
      have hx0 : (0 : ℝ) ≤ x := le_trans (by exact_mod_cast h0) hq
      refine ⟨le_trans hq (le_abs_self x), ?_⟩
      show |x| ≤ (r : ℝ)
      rw [abs_of_nonneg hx0]; exact hr

/-- Containment for `Interval::square`. -/
theorem Interval.memR_square {a : Interval} {x : ℝ} (h : a.memR x) :
    (a.square).memR (x ^ 2) := by
  obtain ⟨l, u⟩ := a
  obtain ⟨h1, h2⟩ := h
  rcases F.lbR_shape h1 with rfl | ⟨q, rfl, hq⟩ <;>
    rcases F.ubR_shape h2 with rfl | ⟨r, rfl, hr⟩
  · have e : Interval.square ⟨.neginf, .posinf⟩ = ⟨.fin 0, .posinf⟩ := by
      simp [Interval.square, Interval.hasNan, F.lt, F.max, F.abs, F.sq,
        F.isNan]
    rw [e]
    exact ⟨by simp only [F.lbR, Rat.cast_zero]; positivity, trivial⟩
  · rcases lt_or_le r 0 with h0 | h0
    · have e : Interval.square ⟨.neginf, .fin r⟩ =
          ⟨.fin (r * r), .posinf⟩ := by
        simp [Interval.square, F.lt, F.sq, h0]
      rw [e]
      refine ⟨?_, trivial⟩
      show ((r * r : ℚ) : ℝ) ≤ x ^ 2
      have : x ≤ (r : ℝ) := hr
      have : (r : ℝ) < 0 := by exact_mod_cast h0
      push_cast; nlinarith
    · have e : Interval.square ⟨.neginf, .fin r⟩ = ⟨.fin 0, .posinf⟩ := by
        simp [Interval.square, Interval.hasNan, F.lt, F.max, F.abs, F.sq,
          F.isNan, not_lt.mpr h0]
      rw [e]
      exact ⟨by simp only [F.lbR, Rat.cast_zero]; positivity, trivial⟩
  · rcases lt_or_le 0 q with h0 | h0
    · have e : Interval.square ⟨.fin q, .posinf⟩ =
          ⟨.fin (q * q), .posinf⟩ := by
        simp [Interval.square, F.lt, F.sq, h0]
      rw [e]
      refine ⟨?_, trivial⟩
      show ((q * q : ℚ) : ℝ) ≤ x ^ 2
      have : (q : ℝ) ≤ x := hq
      have : (0 : ℝ) < q := by exact_mod_cast h0
      push_cast; nlinarith
    · have e : Interval.square ⟨.fin q, .posinf⟩ = ⟨.fin 0, .posinf⟩ := by
        simp [Interval.square, Interval.hasNan, F.lt, F.max, F.abs, F.sq,
          F.isNan, not_lt.mpr h0]
      rw [e]
      exact ⟨by simp only [F.lbR, Rat.cast_zero]; positivity, trivial⟩
  · rcases lt_or_le r 0 with h0 | h0
    · have e : Interval.square ⟨.fin q, .fin r⟩ =
          ⟨.fin (r * r), .fin (q * q)⟩ := by
        simp [Interval.square, F.lt, F.sq, h0]
      rw [e]
      have hxr : x ≤ (r : ℝ) := hr
      have hr0 : (r : ℝ) < 0 := by exact_mod_cast h0
      have hqx : (q : ℝ) ≤ x := hq
      refine ⟨?_, ?_⟩
      · show ((r * r : ℚ) : ℝ) ≤ x ^ 2
        push_cast; nlinarith
      · show x ^ 2 ≤ ((q * q : ℚ) : ℝ)
        push_cast; nlinarith
    · rcases lt_or_le 0 q with h0' | h0'
      · have e : Interval.square ⟨.fin q, .fin r⟩ =
            ⟨.fin (q * q), .fin (r * r)⟩ := by
          simp [Interval.square, F.lt, F.sq, not_lt.mpr h0, h0']
        rw [e]
        have hxr : x ≤ (r : ℝ) := hr
        have hq0 : (0 : ℝ) < q := by exact_mod_cast h0'
        have hqx : (q : ℝ) ≤ x := hq
        refine ⟨?_, ?_⟩
        · show ((q * q : ℚ) : ℝ) ≤ x ^ 2
          push_cast; nlinarith
        · show x ^ 2 ≤ ((r * r : ℚ) : ℝ)
          push_cast; nlinarith
      · have e : Interval.square ⟨.fin q, .fin r⟩ =
            ⟨.fin 0, .fin (Max.max |q| |r| * Max.max |q| |r|)⟩ := by
          simp [Interval.square, Interval.hasNan, F.lt, F.max, F.abs, F.sq,
            F.isNan, not_lt.mpr h0, not_lt.mpr h0']
        rw [e]
        refine ⟨by simp only [F.lbR, Rat.cast_zero]; positivity, ?_⟩
        show x ^ 2 ≤ ((Max.max |q| |r| * Max.max |q| |r| : ℚ) : ℝ)
        have hqx : (q : ℝ) ≤ x := hq
        have hxr : x ≤ (r : ℝ) := hr
        have m1 : (q : ℝ) ≥ -(Max.max (|(q : ℝ)|) (|(r : ℝ)|)) := by
          have := neg_abs_le (q : ℝ)
          have := le_max_left (|(q : ℝ)|) (|(r : ℝ)|)
          linarith
        have m2 : (r : ℝ) ≤ Max.max (|(q : ℝ)|) (|(r : ℝ)|) := by
          have := le_abs_self (r : ℝ)
          have := le_max_right (|(q : ℝ)|) (|(r : ℝ)|)
          linarith
        push_cast
        nlinarith [le_max_left (|(q : ℝ)|) (|(r : ℝ)|),
          abs_nonneg (q : ℝ)]

theorem Interval.eq_mk {i : Interval} {l u : F} (h1 : i.lower = l)
    (h2 : i.upper = u) : i = ⟨l, u⟩ := by
  rw [← h1, ← h2]

/-- C1 (amended): containment for the interval operations.  For all
intervals `a`, `b` satisfying the NaN-or-ordered invariant and containing
no NaN, and all reals `x` in `a` and `y` in `b`: `x + y` lies in `a + b`,
`x - y` in `a - b`, `-x` in `-a`, `|x|` in `a.abs()`, `x^2` in
`a.square()`, `min x y` in the interval of `a.min_choice(b)`, and
`max x y` in the interval of `a.max_choice(b)`; `x * y` lies in `a * b`
except when one operand is `[0, 0]` and the other is `[-inf, +inf]`, in
which case every corner product is `0 * inf = NaN` and `a * b` is the NaN
interval (which contains no real).  Endpoint rounding is idealized per the
spec's rounding note. -/
theorem claimC1 (a b : Interval) (x y : ℝ) (hva : a.valid) (hvb : b.valid)
    (hna : a.hasNan = false) (hnb : b.hasNan = false)
    (hx : a.memR x) (hy : b.memR y) :
    (a.add b).memR (x + y) ∧ (a.sub b).memR (x - y) ∧
    (a.neg).memR (-x) ∧ (a.abs).memR |x| ∧ (a.square).memR (x ^ 2) ∧
    ((a.min_choice b).1).memR (Min.min x y) ∧
    ((a.max_choice b).1).memR (Max.max x y) ∧
    ((a.mul b).memR (x * y) ∨
      ((a = ⟨.fin 0, .fin 0⟩ ∧ b = ⟨.neginf, .posinf⟩) ∨
        (a = ⟨.neginf, .posinf⟩ ∧ b = ⟨.fin 0, .fin 0⟩)) ∧
        a.mul b = nanInterval) := by
  have hmm : (a.hasNan || b.hasNan) = false := by rw [hna, hnb]; rfl
  have emin : (a.min_choice b).1 =
      ⟨F.min a.lower b.lower, F.min a.upper b.upper⟩ := by
    simp [Interval.min_choice, hmm]
  have emax : (a.max_choice b).1 =
      ⟨F.max a.lower b.lower, F.max a.upper b.upper⟩ := by
    simp [Interval.max_choice, hmm]
  have emul : a.mul b =
      ⟨minOf4 (F.mul a.lower b.lower) (F.mul a.lower b.upper)
          (F.mul a.upper b.lower) (F.mul a.upper b.upper),
        maxOf4 (F.mul a.lower b.lower) (F.mul a.lower b.upper)
          (F.mul a.upper b.lower) (F.mul a.upper b.upper)⟩ := by
    simp [Interval.mul, hmm]
  refine ⟨⟨F.lbR_add hx.1 hy.1, F.ubR_add hx.2 hy.2⟩,
    ⟨F.lbR_sub hx.1 hy.2, F.ubR_sub hx.2 hy.1⟩,
    ⟨F.lbR_neg hx.2, F.ubR_neg hx.1⟩,
    Interval.memR_abs hx, Interval.memR_square hx, ?_, ?_, ?_⟩
  · rw [emin]
    exact ⟨F.lbR_min hx.1 hy.1, F.ubR_min hx.2 hy.2⟩
  · rw [emax]
    exact ⟨F.lbR_max hx.1 hy.1, F.ubR_max hx.2 hy.2⟩
  · rcases mulMinBound hx.1 hx.2 hy.1 hy.2 with hlb | hcfg
    · rcases mulMaxBound hx.1 hx.2 hy.1 hy.2 with hub | hcfg
      · exact Or.inl (by rw [emul]; exact ⟨hlb, hub⟩)
      · rcases hcfg with ⟨e1, e2, e3, e4⟩ | ⟨e1, e2, e3, e4⟩
        · have ea : a = ⟨.neginf, .posinf⟩ := Interval.eq_mk e1 e2
          have eb : b = ⟨.fin 0, .fin 0⟩ := Interval.eq_mk e3 e4
          refine Or.inr ⟨Or.inr ⟨ea, eb⟩, ?_⟩
          rw [ea, eb]; decide
        · have ea : a = ⟨.fin 0, .fin 0⟩ := Interval.eq_mk e1 e2
          have eb : b = ⟨.neginf, .posinf⟩ := Interval.eq_mk e3 e4
          refine Or.inr ⟨Or.inl ⟨ea, eb⟩, ?_⟩
          rw [ea, eb]; decide
    · rcases hcfg with ⟨e1, e2, e3, e4⟩ | ⟨e1, e2, e3, e4⟩
      · have ea : a = ⟨.neginf, .posinf⟩ := Interval.eq_mk e1 e2
        have eb : b = ⟨.fin 0, .fin 0⟩ := Interval.eq_mk e3 e4
        refine Or.inr ⟨Or.inr ⟨ea, eb⟩, ?_⟩
        rw [ea, eb]; decide
      · have ea : a = ⟨.fin 0, .fin 0⟩ := Interval.eq_mk e1 e2
        have eb : b = ⟨.neginf, .posinf⟩ := Interval.eq_mk e3 e4
        refine Or.inr ⟨Or.inl ⟨ea, eb⟩, ?_⟩
        rw [ea, eb]; decide

/-- C1 counterexample: the claim as stated (the mathematical result always
lies in the returned interval) fails for multiplication at `a = [0, 0]`,
`b = [-inf, +inf]`, `x = 0`, `y = 1`: both inputs are valid and NaN-free
and contain `x` resp. `y`, yet `a * b` is the NaN interval, which contains
no real, so `x * y = 0` is not in it. -/
theorem claimC1_counterexample :
    Interval.valid ⟨.fin 0, .fin 0⟩ ∧ Interval.valid ⟨.neginf, .posinf⟩ ∧
    (⟨.fin 0, .fin 0⟩ : Interval).hasNan = false ∧
    (⟨.neginf, .posinf⟩ : Interval).hasNan = false ∧
    (⟨.fin 0, .fin 0⟩ : Interval).memR 0 ∧
    (⟨.neginf, .posinf⟩ : Interval).memR 1 ∧
    ¬ (Interval.mul ⟨.fin 0, .fin 0⟩ ⟨.neginf, .posinf⟩).memR (0 * 1) := by
  have e : Interval.mul ⟨.fin 0, .fin 0⟩ ⟨.neginf, .posinf⟩ = nanInterval :=
    by decide
  refine ⟨by decide, by decide, rfl, rfl,
    ⟨by norm_num [F.lbR], by norm_num [F.ubR]⟩, ⟨trivial, trivial⟩, ?_⟩
  rw [e]
  simp [Interval.memR, nanInterval, F.lbR, F.ubR]

/-- C1 witness: the amended containment theorem applied at `a = [0, 1]`,
`b = [1, 2]`, `x = 0`, `y = 1`. -/
theorem claimC1_witness :
    (Interval.add ⟨.fin 0, .fin 1⟩ ⟨.fin 1, .fin 2⟩).memR (0 + 1) :=
  (claimC1 ⟨.fin 0, .fin 1⟩ ⟨.fin 1, .fin 2⟩ 0 1 (by decide) (by decide)
    rfl rfl ⟨by norm_num [F.lbR], by norm_num [F.ubR]⟩
    ⟨by norm_num [F.lbR], by norm_num [F.ubR]⟩).1

/-- Inversion: the choice `if`-chain yields `Left` only when its first
condition holds. -/
theorem choice_ite_left {c1 c2 : Bool}
    (h : (if c1 then Choice.Left else if c2 then Choice.Right
      else Choice.Both) = Choice.Left) : c1 = true := by
  cases c1
  · cases c2 <;> simp_all
  · rfl

/-- Inversion: the choice `if`-chain yields `Right` only when its second
condition holds. -/
theorem choice_ite_right {c1 c2 : Bool}
    (h : (if c1 then Choice.Left else if c2 then Choice.Right
      else Choice.Both) = Choice.Right) : c2 = true := by
  cases c1 <;> cases c2 <;> simp_all

/-- C3: choice soundness.  For intervals satisfying the invariant and
reals `x` in `a`, `y` in `b`: a `Left` choice from `min_choice` means
`min x y = x`, a `Right` choice means `min x y = y`, and symmetrically for
`max_choice`; `Both` places no constraint. -/
theorem claimC3 (a b : Interval) (x y : ℝ) (hva : a.valid) (hvb : b.valid)
    (hx : a.memR x) (hy : b.memR y) :
    ((a.min_choice b).2 = .Left → Min.min x y = x) ∧
    ((a.min_choice b).2 = .Right → Min.min x y = y) ∧
    ((a.max_choice b).2 = .Left → Max.max x y = x) ∧
    ((a.max_choice b).2 = .Right → Max.max x y = y) := by
  by_cases hn : (a.hasNan || b.hasNan) = true
  · have e1 : (a.min_choice b).2 = Choice.Both := by
      simp [Interval.min_choice, hn]
    have e2 : (a.max_choice b).2 = Choice.Both := by
      simp [Interval.max_choice, hn]
    rw [e1, e2]
    refine ⟨fun h => absurd h (by decide), fun h => absurd h (by decide),
      fun h => absurd h (by decide), fun h => absurd h (by decide)⟩
  · rw [Bool.not_eq_true] at hn
    have e1 : (a.min_choice b).2 =
        (if F.lt a.upper b.lower then Choice.Left
          else if F.lt b.upper a.lower then Choice.Right
          else Choice.Both) := by
      simp [Interval.min_choice, hn]
    have e2 : (a.max_choice b).2 =
        (if F.lt b.upper a.lower then Choice.Left
          else if F.lt a.upper b.lower then Choice.Right
          else Choice.Both) := by
      simp [Interval.max_choice, hn]
    refine ⟨?_, ?_, ?_, ?_⟩ <;> intro hc
    · rw [e1] at hc
      exact min_eq_left (F.lt_sep hx.2 hy.1 (choice_ite_left hc)).le
    · rw [e1] at hc
      exact min_eq_right (F.lt_sep hy.2 hx.1 (choice_ite_right hc)).le
    · rw [e2] at hc
      exact max_eq_left (F.lt_sep hy.2 hx.1 (choice_ite_left hc)).le
    · rw [e2] at hc
      exact max_eq_right (F.lt_sep hx.2 hy.1 (choice_ite_right hc)).le

/-- C3 witness: choice soundness applied at `a = [0, 1]`, `b = [2, 3]`,
`x = 1`, `y = 2`, where `min_choice` reports `Left`. -/
theorem claimC3_witness : Min.min (1 : ℝ) 2 = 1 :=
  (claimC3 ⟨.fin 0, .fin 1⟩ ⟨.fin 2, .fin 3⟩ 1 2 (by decide) (by decide)
    ⟨by norm_num [F.lbR], by norm_num [F.ubR]⟩
    ⟨by norm_num [F.lbR], by norm_num [F.ubR]⟩).1 (by decide)

theorem F.le_of_lt' {a b : F} (h : F.lt a b = true) : F.le a b = true := by
  cases a <;> cases b <;> simp_all [F.le, F.lt] <;> linarith

theorem F.lt_trans' {a b c : F} (h1 : F.lt a b = true)
    (h2 : F.lt b c = true) : F.lt a c = true := by
  cases a <;> cases b <;> cases c <;> simp_all [F.lt] <;> linarith

/-- Inversion: the choice `if`-chain yields `Both` only when neither
condition holds. -/
theorem choice_ite_both {c1 c2 : Bool}
    (h : (if c1 then Choice.Left else if c2 then Choice.Right
      else Choice.Both) = Choice.Both) : c1 = false ∧ c2 = false := by
  cases c1 <;> cases c2 <;> simp_all

/-- C2: `min_choice` and `max_choice`.  If either operand has a NaN
endpoint the result is `(NaN, Both)`; otherwise the numeric result is the
componentwise min resp. max, and the choice is `Left` iff the left
operand is strictly smaller (resp. larger) everywhere, `Right` iff the
right operand is, and `Both` otherwise — in particular ties yield
`Both`. -/
theorem claimC2 (a b : Interval) (hva : a.valid) (hvb : b.valid) :
    ((a.hasNan || b.hasNan) = true →
      a.min_choice b = (nanInterval, .Both) ∧
      a.max_choice b = (nanInterval, .Both)) ∧
    ((a.hasNan || b.hasNan) = false →
      (a.min_choice b).1 = ⟨F.min a.lower b.lower, F.min a.upper b.upper⟩ ∧
      (a.max_choice b).1 = ⟨F.max a.lower b.lower, F.max a.upper b.upper⟩ ∧
      ((a.min_choice b).2 = .Left ↔ F.lt a.upper b.lower = true) ∧
      ((a.min_choice b).2 = .Right ↔ F.lt b.upper a.lower = true) ∧
      ((a.min_choice b).2 = .Both ↔
        F.lt a.upper b.lower = false ∧ F.lt b.upper a.lower = false) ∧
      ((a.max_choice b).2 = .Left ↔ F.lt b.upper a.lower = true) ∧
      ((a.max_choice b).2 = .Right ↔ F.lt a.upper b.lower = true) ∧
      ((a.max_choice b).2 = .Both ↔
        F.lt b.upper a.lower = false ∧ F.lt a.upper b.lower = false)) := by
  constructor
  · intro h
    constructor <;> simp [Interval.min_choice, Interval.max_choice, h]
  · intro h
    have hab : a.hasNan = false ∧ b.hasNan = false := by
      simpa using h
    have le1 : F.le a.lower a.upper = true :=
      Interval.le_of_valid hva hab.1
    have le2 : F.le b.lower b.upper = true :=
      Interval.le_of_valid hvb hab.2
    have excl : ¬(F.lt a.upper b.lower = true ∧
        F.lt b.upper a.lower = true) := by
      rintro ⟨p, q⟩
      have c1 : F.lt a.lower b.lower = true := F.lt_of_le_of_lt' le1 p
      have c2 : F.lt a.lower b.upper = true := F.lt_of_lt_of_le' c1 le2
      have c3 : F.lt a.lower a.lower = true := F.lt_trans' c2 q
      rw [F.lt_irrefl'] at c3
      exact absurd c3 (by simp)
    have mc2 : (a.min_choice b).2 =
        (if F.lt a.upper b.lower then Choice.Left
          else if F.lt b.upper a.lower then Choice.Right
          else Choice.Both) := by
      simp [Interval.min_choice, h]
    have xc2 : (a.max_choice b).2 =
        (if F.lt b.upper a.lower then Choice.Left
          else if F.lt a.upper b.lower then Choice.Right
          else Choice.Both) := by
      simp [Interval.max_choice, h]
    refine ⟨by simp [Interval.min_choice, h],
      by simp [Interval.max_choice, h], ?_, ?_, ?_, ?_, ?_, ?_⟩
    · constructor
      · intro hc; exact choice_ite_left (mc2 ▸ hc)
      · intro hlt; rw [mc2, if_pos hlt]
    · constructor
      · intro hc; exact choice_ite_right (mc2 ▸ hc)
      · intro hlt
        have hf : F.lt a.upper b.lower = false := by
          rcases Bool.eq_false_or_eq_true (F.lt a.upper b.lower) with e | e
          · exact absurd ⟨e, hlt⟩ excl
          · exact e
        rw [mc2, if_neg (by simp [hf]), if_pos hlt]
    · constructor
      · intro hc; exact choice_ite_both (mc2 ▸ hc)
      · rintro ⟨f1, f2⟩
        rw [mc2, if_neg (by simp [f1]), if_neg (by simp [f2])]
    · constructor
      · intro hc; exact choice_ite_left (xc2 ▸ hc)
      · intro hlt; rw [xc2, if_pos hlt]
    · constructor
      · intro hc; exact choice_ite_right (xc2 ▸ hc)
      · intro hlt
        have hf : F.lt b.upper a.lower = false := by
          rcases Bool.eq_false_or_eq_true (F.lt b.upper a.lower) with e | e
          · exact absurd ⟨hlt, e⟩ excl
          · exact e
        rw [xc2, if_neg (by simp [hf]), if_pos hlt]
    · constructor
      · intro hc; exact choice_ite_both (xc2 ▸ hc)
      · rintro ⟨f1, f2⟩
        rw [xc2, if_neg (by simp [f1]), if_neg (by simp [f2])]

/-- C2 witness: the tie case `a = [1, 2]`, `b = [2, 3]` yields the
componentwise minimum and the conservative `Both` choice. -/
theorem claimC2_witness :
    (Interval.min_choice ⟨.fin 1, .fin 2⟩ ⟨.fin 2, .fin 3⟩).2 =
      Choice.Both :=
  (((claimC2 ⟨.fin 1, .fin 2⟩ ⟨.fin 2, .fin 3⟩ (by decide)
    (by decide)).2 rfl).2.2.2.2.1).mpr (by decide)

/-- A valid interval whose endpoints are finite or NaN is the NaN interval
or a pair of ordered finite endpoints. -/
theorem Interval.shape_finOrNan {i : Interval} (hv : i.valid)
    (hni : i.noInf) :
    i = nanInterval ∨ ∃ q r : ℚ, i = ⟨.fin q, .fin r⟩ ∧ q ≤ r := by
  obtain ⟨l, u⟩ := i
  obtain ⟨n1, n2⟩ := hni
  rcases l with _ | _ | _ | q <;> rcases u with _ | _ | _ | r <;>
    simp_all [Interval.valid, newCheck, F.le, F.isNan, F.finite,
      nanInterval]
  exact ⟨q, r, ⟨rfl, rfl⟩, hv⟩

/-- C7 (amended): totality of `add` and `sub` on valid intervals whose
endpoints are finite or NaN: the results have the stated endpoints and
always pass the `Interval::new` assertion (ordered endpoints or the NaN
interval); with an infinite endpoint the assertion can fail (see the
counterexample). -/
theorem claimC7 (a b : Interval) (hva : a.valid) (hvb : b.valid)
    (hia : a.noInf) (hib : b.noInf) :
    a.add b = ⟨F.add a.lower b.lower, F.add a.upper b.upper⟩ ∧
    a.sub b = ⟨F.sub a.lower b.upper, F.sub a.upper b.lower⟩ ∧
    newCheck (a.add b).lower (a.add b).upper = true ∧
    newCheck (a.sub b).lower (a.sub b).upper = true := by
  refine ⟨rfl, rfl, ?_, ?_⟩ <;>
    rcases Interval.shape_finOrNan hva hia with rfl | ⟨q1, r1, rfl, hqr1⟩ <;>
      rcases Interval.shape_finOrNan hvb hib with rfl | ⟨q2, r2, rfl, hqr2⟩
  · decide
  · simp [Interval.add, F.add, newCheck, F.isNan, nanInterval]
  · simp [Interval.add, F.add, newCheck, F.isNan, nanInterval]
  · simp only [Interval.add, F.add, newCheck, F.le, F.isNan]
    have : q1 + q2 ≤ r1 + r2 := by linarith
    simp [this]
  · decide
  · simp [Interval.sub, F.sub, F.add, F.neg, newCheck, F.isNan, nanInterval]
  · simp [Interval.sub, F.sub, F.add, F.neg, newCheck, F.isNan, nanInterval]
  · simp only [Interval.sub, F.sub, F.add, F.neg, newCheck, F.le, F.isNan]
    have : q1 + -r2 ≤ r1 + -q2 := by linarith
    simp [this]

/-- C7 counterexample: with infinite endpoints the claim fails.  Both
`[-inf, 0]` and `[+inf, +inf]` satisfy the invariant, yet their sum has
endpoints `(-inf) + (+inf) = NaN` and `0 + (+inf) = +inf` — a half-NaN
pair on which the `Interval::new` assertion fails (the Rust code
panics). -/
theorem claimC7_counterexample :
    Interval.valid ⟨.neginf, .fin 0⟩ ∧ Interval.valid ⟨.posinf, .posinf⟩ ∧
    Interval.add ⟨.neginf, .fin 0⟩ ⟨.posinf, .posinf⟩ = ⟨.nan, .posinf⟩ ∧
    newCheck (Interval.add ⟨.neginf, .fin 0⟩ ⟨.posinf, .posinf⟩).lower
      (Interval.add ⟨.neginf, .fin 0⟩ ⟨.posinf, .posinf⟩).upper = false :=
  ⟨by decide, by decide, by decide, by decide⟩

/-- C7 witness: the amended totality theorem applied at `a = [0, 1]`,
`b = [1, 2]`. -/
theorem claimC7_witness :
    newCheck (Interval.add ⟨.fin 0, .fin 1⟩ ⟨.fin 1, .fin 2⟩).lower
      (Interval.add ⟨.fin 0, .fin 1⟩ ⟨.fin 1, .fin 2⟩).upper = true :=
  (claimC7 ⟨.fin 0, .fin 1⟩ ⟨.fin 1, .fin 2⟩ (by decide) (by decide)
    (by decide) (by decide)).2.2.1

/-- C8: `sqrt` branching.  With `s` standing for the endpoint
`f32::sqrt` (which maps NaN to NaN): `lo >= 0` gives `[s lo, s hi]`;
`lo < 0 < hi` gives `[0, s hi]` (negative part clamped); `lo < 0` with
`hi <= 0` gives the NaN interval; and the NaN interval maps to itself. -/
theorem claimC8 (s : F → F) (a : Interval) (hs : s .nan = .nan)
    (hv : a.valid) :
    (F.le (.fin 0) a.lower = true → a.sqrt s = ⟨s a.lower, s a.upper⟩) ∧
    (F.lt a.lower (.fin 0) = true → F.lt (.fin 0) a.upper = true →
      a.sqrt s = ⟨.fin 0, s a.upper⟩) ∧
    (F.lt a.lower (.fin 0) = true → F.le a.upper (.fin 0) = true →
      a.sqrt s = nanInterval) ∧
    (a = nanInterval → a.sqrt s = nanInterval) := by
  refine ⟨?_, ?_, ?_, ?_⟩
  · intro h
    have hf : F.lt a.lower (.fin 0) = false := F.not_lt_of_le h
    simp [Interval.sqrt, hf]
  · intro h1 h2
    simp [Interval.sqrt, h1, h2]
  · intro h1 h2
    have hf : F.lt (.fin 0) a.upper = false := F.not_lt_of_le h2
    simp [Interval.sqrt, h1, hf]
  · intro h
    subst h
    simp [Interval.sqrt, nanInterval, F.lt, hs]

/-- C8 witness: the non-negative branch applied at `[0, 4]` with a
concrete endpoint square root. -/
theorem claimC8_witness :
    Interval.sqrt sqrtStub ⟨.fin 0, .fin 4⟩ =
      ⟨sqrtStub (.fin 0), sqrtStub (.fin 4)⟩ :=
  (claimC8 sqrtStub ⟨.fin 0, .fin 4⟩ rfl (by decide)).1 (by decide)

/-- C9: `recip` and `div` NaN policy.  `recip` returns `[1/hi, 1/lo]` when
the interval has no zero (`lo > 0` or `hi < 0`) and the NaN interval
otherwise; `div` returns the NaN interval when the numerator has a NaN
endpoint or the denominator contains zero (`lo <= 0 <= hi` in IEEE
order), and otherwise the running min/max over the four endpoint
quotients. -/
theorem claimC9 (a b : Interval) (hva : a.valid) (hvb : b.valid) :
    ((F.lt (.fin 0) a.lower || F.lt a.upper (.fin 0)) = true →
      a.recip = ⟨F.div (.fin 1) a.upper, F.div (.fin 1) a.lower⟩) ∧
    ((F.lt (.fin 0) a.lower || F.lt a.upper (.fin 0)) = false →
      a.recip = nanInterval) ∧
    (a.hasNan = true → a.div b = nanInterval) ∧
    ((F.le b.lower (.fin 0) && F.le (.fin 0) b.upper) = true →
      a.div b = nanInterval) ∧
    (a.hasNan = false →
      (F.le b.lower (.fin 0) && F.le (.fin 0) b.upper) = false →
      a.div b =
        ⟨minOf4 (F.div a.lower b.lower) (F.div a.lower b.upper)
            (F.div a.upper b.lower) (F.div a.upper b.upper),
          maxOf4 (F.div a.lower b.lower) (F.div a.lower b.upper)
            (F.div a.upper b.lower) (F.div a.upper b.upper)⟩) := by
  refine ⟨?_, ?_, ?_, ?_, ?_⟩
  · intro h; simp [Interval.recip, h]
  · intro h; simp [Interval.recip, h]
  · intro h; simp [Interval.div, h]
  · intro h
    rw [Bool.and_eq_true] at h
    obtain ⟨h1, h2⟩ := h
    by_cases hn : a.hasNan = true
    · simp [Interval.div, hn]
    · rw [Bool.not_eq_true] at hn
      have e1 : F.lt (.fin 0) b.lower = false := F.not_lt_of_le h1
      have e2 : F.lt b.upper (.fin 0) = false := F.not_lt_of_le h2
      simp [Interval.div, hn, e1, e2]
  · intro hn h
    by_cases hb : b.hasNan = true
    · have eb : b = nanInterval := Interval.nan_of_valid hvb hb
      subst eb
      have ed : ∀ z : F, F.div z .nan = .nan := fun z => by cases z <;> rfl
      simp [Interval.div, hn, F.lt, nanInterval, ed, minOf4, maxOf4,
        F.min, F.max]
    · rw [Bool.not_eq_true] at hb
      have hb' : b.lower.isNan = false ∧ b.upper.isNan = false := by
        simpa [Interval.hasNan] using hb
      rcases Bool.eq_false_or_eq_true (F.le b.lower (.fin 0))
        with hbl | hbl
      · have h' : F.le (.fin 0) b.upper = false := by
          rw [hbl] at h; simpa using h
        have e : F.lt b.upper (.fin 0) = true :=
          F.lt_of_not_le rfl hb'.2 h'
        simp [Interval.div, hn, e]
      · have e : F.lt (.fin 0) b.lower = true :=
          F.lt_of_not_le hb'.1 rfl hbl
        simp [Interval.div, hn, e]

/-- C9 witness: `recip` on `[1, 2]` (no zero) returns `[1/2, 1/1]`. -/
theorem claimC9_witness :
    Interval.recip ⟨.fin 1, .fin 2⟩ =
      ⟨F.div (.fin 1) (.fin 2), F.div (.fin 1) (.fin 1)⟩ :=
  (claimC9 ⟨.fin 1, .fin 2⟩ ⟨.fin 1, .fin 1⟩ (by decide) (by decide)).1
    (by decide)

/-- C6: `eval_i` error behaviour.  `eval_i` returns
`Err(BadVarSlice(vars.len(), tape.var_count()))` iff the lengths differ;
on the error path the whole evaluator state (choice buffer included) is
untouched; on the success path the choice buffer is reset to all
`Unknown` before the back-end is invoked on it. -/
theorem claimC6 {σ τ : Type} (B : BackendT σ τ) (e : IntervalEval σ)
    (x y z : Interval) (vars : List F) :
    ((IntervalEval.evalI B e x y z vars).1 =
        Except.error (Error.BadVarSlice vars.length e.tape.varCount) ↔
      vars.length ≠ e.tape.varCount) ∧
    (vars.length ≠ e.tape.varCount →
      IntervalEval.evalI B e x y z vars =
        (Except.error (Error.BadVarSlice vars.length e.tape.varCount),
          e)) ∧
    (vars.length = e.tape.varCount →
      IntervalEval.evalI B e x y z vars =
        (Except.ok (B.evalB e.eval x y z vars
            (e.choices.map fun _ => Choice.Unknown)).1,
          { tape := e.tape,
            choices := (B.evalB e.eval x y z vars
              (e.choices.map fun _ => Choice.Unknown)).2.1,
            eval := (B.evalB e.eval x y z vars
              (e.choices.map fun _ => Choice.Unknown)).2.2 })) := by
  by_cases h : vars.length = e.tape.varCount
  · refine ⟨?_, fun hne => absurd h hne, fun _ => ?_⟩
    · constructor
      · intro he
        simp [IntervalEval.evalI, h] at he
      · intro hne; exact absurd h hne
    · simp [IntervalEval.evalI, h, IntervalEval.resetChoices]
  · refine ⟨?_, fun _ => ?_, fun heq => absurd heq h⟩
    · simp [IntervalEval.evalI, h]
    · simp [IntervalEval.evalI, h]

/-- C6 witness: the success path on a tape with one choice and no vars;
the back-end receives the freshly reset buffer and its writes land in the
evaluator. -/
theorem claimC6_witness :
    IntervalEval.evalI constBackend
        (IntervalEval.new constBackend ⟨1, 0⟩) ⟨.fin 0, .fin 1⟩
        ⟨.fin 0, .fin 1⟩ ⟨.fin 0, .fin 1⟩ [] =
      (Except.ok ⟨.fin 0, .fin 0⟩,
        { tape := ⟨1, 0⟩, choices := [Choice.Left], eval := () }) := by
  have h := (claimC6 constBackend (IntervalEval.new constBackend ⟨1, 0⟩)
    ⟨.fin 0, .fin 1⟩ ⟨.fin 0, .fin 1⟩ ⟨.fin 0, .fin 1⟩ []).2.2 rfl
  rw [h]; rfl

/-- C4 (amended): `eval_i_subdiv(..., 0)` is observationally equivalent to
`eval_i(...)` provided `vars.len() = tape.var_count()`: both reset the
choice buffer, delegate once to the back-end, and produce the same value
and state.  When the lengths differ the equivalence fails: `eval_i`
errors without touching the buffer while `eval_i_subdiv` resets and
delegates anyway (see the counterexample). -/
theorem claimC4 {σ τ : Type} (B : BackendT σ τ) (e : IntervalEval σ)
    (x y z : Interval) (vars : List F)
    (h : vars.length = e.tape.varCount) :
    IntervalEval.evalI B e x y z vars =
      (Except.ok (IntervalEval.evalISubdiv B e x y z vars 0).1,
        (IntervalEval.evalISubdiv B e x y z vars 0).2) := by
  simp [IntervalEval.evalI, IntervalEval.evalISubdiv, evalSubdivRecurse, h]

/-- C4 counterexample: with `vars.len() = 0` but `var_count = 1`,
`eval_i` returns `BadVarSlice(0, 1)` and leaves the buffer at `Unknown`,
while `eval_i_subdiv(..., 0)` resets and delegates, ending with the
back-end's `Left` — so the two are not observationally equivalent. -/
theorem claimC4_counterexample :
    (IntervalEval.evalI constBackend (IntervalEval.new constBackend ⟨1, 1⟩)
        ⟨.fin 0, .fin 1⟩ ⟨.fin 0, .fin 1⟩ ⟨.fin 0, .fin 1⟩ []).1 =
      Except.error (Error.BadVarSlice 0 1) ∧
    (IntervalEval.evalI constBackend (IntervalEval.new constBackend ⟨1, 1⟩)
        ⟨.fin 0, .fin 1⟩ ⟨.fin 0, .fin 1⟩ ⟨.fin 0, .fin 1⟩ []).2.choices =
      [Choice.Unknown] ∧
    (IntervalEval.evalISubdiv constBackend
        (IntervalEval.new constBackend ⟨1, 1⟩) ⟨.fin 0, .fin 1⟩
        ⟨.fin 0, .fin 1⟩ ⟨.fin 0, .fin 1⟩ [] 0).2.choices =
      [Choice.Left] ∧
    (IntervalEval.evalISubdiv constBackend
        (IntervalEval.new constBackend ⟨1, 1⟩) ⟨.fin 0, .fin 1⟩
        ⟨.fin 0, .fin 1⟩ ⟨.fin 0, .fin 1⟩ [] 0).2 ≠
      (IntervalEval.evalI constBackend (IntervalEval.new constBackend ⟨1, 1⟩)
        ⟨.fin 0, .fin 1⟩ ⟨.fin 0, .fin 1⟩ ⟨.fin 0, .fin 1⟩ []).2 :=
  ⟨rfl, rfl, rfl, by decide⟩

/-- C4 witness: the amended equivalence on a matching vars slice. -/
theorem claimC4_witness :
    IntervalEval.evalI constBackend (IntervalEval.new constBackend ⟨1, 0⟩)
        ⟨.fin 0, .fin 1⟩ ⟨.fin 0, .fin 1⟩ ⟨.fin 0, .fin 1⟩ [] =
      (Except.ok (IntervalEval.evalISubdiv constBackend
          (IntervalEval.new constBackend ⟨1, 0⟩) ⟨.fin 0, .fin 1⟩
          ⟨.fin 0, .fin 1⟩ ⟨.fin 0, .fin 1⟩ [] 0).1,
        (IntervalEval.evalISubdiv constBackend
          (IntervalEval.new constBackend ⟨1, 0⟩) ⟨.fin 0, .fin 1⟩
          ⟨.fin 0, .fin 1⟩ ⟨.fin 0, .fin 1⟩ [] 0).2) :=
  claimC4 constBackend _ _ _ _ _ rfl

/-- C5: the subdivision algorithm.  (1) `eval_i_subdiv` resets the choice
buffer exactly once, at the outer entry, before running the recursion.
(2) At depth `k + 1` the recursion selects the axis of largest width with
tie-break order x, then y, then z (`dx >= dy && dx >= dz` splits x, else
`dy >= dz` splits y, else z), splits at exactly `lo + width/2`, recurses
on both halves at depth `k`, and merges the sub-results `a, b` as the NaN
interval if either has a NaN endpoint and as
`new(min(a.lo, b.lo), max(a.hi, b.hi))` otherwise.  (3) The recursion
itself never resets the buffer: with a back-end that writes nothing, the
buffer emerges from any depth unchanged. -/
theorem claimC5 :
    (∀ (σ τ : Type) (B : BackendT σ τ) (e : IntervalEval σ)
      (x y z : Interval) (vars : List F) (k : Nat),
      IntervalEval.evalISubdiv B e x y z vars k =
        evalSubdivRecurse B e.resetChoices x y z vars k) ∧
    (∀ (σ τ : Type) (B : BackendT σ τ) (e : IntervalEval σ)
      (x y z : Interval) (vars : List F) (k : Nat),
      evalSubdivRecurse B e x y z vars (k + 1) =
        (let dx := F.sub x.upper x.lower
        let dy := F.sub y.upper y.lower
        let dz := F.sub z.upper z.lower
        let r :=
          if F.le dy dx && F.le dz dx then
            let xmid := F.add x.lower (F.div dx (.fin 2))
            let r1 := evalSubdivRecurse B e ⟨x.lower, xmid⟩ y z vars k
            let r2 :=
              evalSubdivRecurse B r1.2 ⟨xmid, x.upper⟩ y z vars k
            (r1.1, r2.1, r2.2)
          else if F.le dz dy then
            let ymid := F.add y.lower (F.div dy (.fin 2))
            let r1 := evalSubdivRecurse B e x ⟨y.lower, ymid⟩ z vars k
            let r2 :=
              evalSubdivRecurse B r1.2 x ⟨ymid, y.upper⟩ z vars k
            (r1.1, r2.1, r2.2)
          else
            let zmid := F.add z.lower (F.div dz (.fin 2))
            let r1 := evalSubdivRecurse B e x y ⟨z.lower, zmid⟩ vars k
            let r2 :=
              evalSubdivRecurse B r1.2 x y ⟨zmid, z.upper⟩ vars k
            (r1.1, r2.1, r2.2)
        (if r.1.hasNan || r.2.1.hasNan then nanInterval
          else ⟨F.min r.1.lower r.2.1.lower, F.max r.1.upper r.2.1.upper⟩,
          r.2.2))) ∧
    (∀ (σ τ : Type) (B : BackendT σ τ),
      (∀ (s : σ) (x y z : Interval) (vars : List F) (ch : List Choice),
        (B.evalB s x y z vars ch).2.1 = ch) →
      ∀ (e : IntervalEval σ) (x y z : Interval) (vars : List F) (k : Nat),
        (evalSubdivRecurse B e x y z vars k).2.choices = e.choices) := by
  refine ⟨fun _ _ _ _ _ _ _ _ _ => rfl, fun _ _ _ _ _ _ _ _ _ => rfl, ?_⟩
  intro σ τ B hB e x y z vars k
  induction k generalizing e x y z with
  | zero => simp [evalSubdivRecurse, hB]
  | succ k ih =>
    simp only [evalSubdivRecurse]
    split_ifs <;> simp [ih]

/-- C5 witness: a two-level subdivision with a back-end that writes
nothing leaves the choice buffer exactly as it was. -/
theorem claimC5_witness :
    (evalSubdivRecurse passBackend (IntervalEval.new passBackend ⟨2, 0⟩)
        ⟨.fin 0, .fin 1⟩ ⟨.fin 0, .fin 1⟩ ⟨.fin 0, .fin 1⟩ [] 2).2.choices =
      (IntervalEval.new passBackend ⟨2, 0⟩).choices :=
  claimC5.2.2 Unit Unit passBackend (fun _ _ _ _ _ _ => rfl) _ _ _ _ _ 2

/-- C10: after `IntervalEval::new` every choice slot is `Unknown` and the
buffer length equals `tape.choice_count()`; after
`IntervalEval::new_with_storage` the buffer is resized to
`tape.choice_count()`, but only the newly added slots are `Unknown` —
slots carried over from the storage keep their previous `Choice` values,
and `choices()` exposes them until the next reset replaces everything
with `Unknown`. -/
theorem claimC10 {σ τ : Type} (B : BackendT σ τ) (tape : TapeT)
    (s : IntervalEvalStorage τ) :
    (IntervalEval.new B tape).choices =
        List.replicate tape.choiceCount Choice.Unknown ∧
    (IntervalEval.new B tape).choices.length = tape.choiceCount ∧
    (IntervalEval.newWithStorage B tape s).choices.length =
        tape.choiceCount ∧
    (∀ i : Nat, i < s.choices.length → i < tape.choiceCount →
      (IntervalEval.newWithStorage B tape s).choices[i]? =
        s.choices[i]?) ∧
    (∀ i : Nat, s.choices.length ≤ i → i < tape.choiceCount →
      (IntervalEval.newWithStorage B tape s).choices[i]? =
        some Choice.Unknown) ∧
    (IntervalEval.newWithStorage B tape s).choicesView =
        (IntervalEval.newWithStorage B tape s).choices ∧
    ((IntervalEval.newWithStorage B tape s).resetChoices).choices =
        List.replicate tape.choiceCount Choice.Unknown := by
  have hlen : (vecResize s.choices tape.choiceCount Choice.Unknown).length =
      tape.choiceCount := by
    rw [vecResize]
    split_ifs with h
    · simp [List.length_take]; omega
    · simp; omega
  refine ⟨rfl, by simp [IntervalEval.new], hlen, ?_, ?_, rfl, ?_⟩
  · intro i hi hn
    show (vecResize s.choices tape.choiceCount Choice.Unknown)[i]? = _
    rw [vecResize]
    split_ifs with h
    · exact List.getElem?_take_of_lt hn
    · exact List.getElem?_append_left hi
  · intro i hi hn
    show (vecResize s.choices tape.choiceCount Choice.Unknown)[i]? = _
    rw [vecResize]
    split_ifs with h
    · omega
    · rw [List.getElem?_append_right hi, List.getElem?_replicate]
      have : i - s.choices.length < tape.choiceCount - s.choices.length :=
        by omega
      simp [this]
  · show (vecResize s.choices tape.choiceCount Choice.Unknown).map
        (fun _ => Choice.Unknown) = _
    rw [List.eq_replicate_iff]
    refine ⟨by simpa using hlen, ?_⟩
    intro b hb
    rcases List.mem_map.mp hb with ⟨_, _, rfl⟩
    rfl

/-- C10 witness: a storage buffer holding `Both` carried into a tape with
two choices keeps the stale `Both` in slot 0 and fills slot 1 with
`Unknown`. -/
theorem claimC10_witness :
    (IntervalEval.newWithStorage constBackend ⟨2, 0⟩
        ⟨[Choice.Both], ()⟩).choices[0]? = some Choice.Both ∧
    (IntervalEval.newWithStorage constBackend ⟨2, 0⟩
        ⟨[Choice.Both], ()⟩).choices[1]? = some Choice.Unknown := by
  have h := claimC10 constBackend ⟨2, 0⟩ ⟨[Choice.Both], ()⟩
  exact ⟨by rw [h.2.2.2.1 0 (by decide) (by decide)]; rfl,
    h.2.2.2.2.1 1 (by decide) (by decide)⟩

end Fidget
